import Mathlib

/-!
# Verification of the CreatorsBuddy script-generation pipeline

Shallow embedding of `src/script_generator.py` (class `ScriptGenerator`).
Python text is modelled as `List Char`; Python's whitespace-sensitive
operations (`str.split()`, `str.strip()`, the `re` patterns actually used)
are translated character by character.  The external Gemini call is
modelled as an oracle `Nat → Except Txt GenResponse` indexed by the order
in which `generate_content` is invoked inside one `generate_script` call
(the generated text may depend on the prompt in reality, but since the
oracle is universally quantified per call index, every concrete behaviour
of the service is captured by some oracle).

Whitespace / word-character caveat: Python `str.split()`, `\s` and `\w`
are Unicode-aware; the model uses the ASCII whitespace set (which is what
`\s` and `str.split()` agree on for ASCII text) and ASCII alphanumerics
for `\w`.  Both sides of every theorem use the same predicate, mirroring
the fact that the source also uses one consistent notion.
-/

namespace CreatorsBuddy

/-- Python text, modelled as a list of unicode scalar values. -/
abbrev Txt := List Char

/-- Whitespace as recognised by `str.split()` / regex `\s` (ASCII part):
space, tab, newline, carriage return, vertical tab, form feed. -/
def isSpace (c : Char) : Bool :=
  c = ' ' || c = '\t' || c = '\n' || c = '\r' || c = '\x0b' || c = '\x0c'

/-- Helper for `wsplit`: accumulate the current word (reversed) while
scanning; emit it when whitespace or the end of the text is reached.
Models Python `str.split()` (split on whitespace runs, dropping empties). -/
def wsplitAux : List Char → List Char → List (List Char)
  | [], acc => if acc.isEmpty then [] else [acc.reverse]
  | c :: cs, acc =>
    if isSpace c then
      if acc.isEmpty then wsplitAux cs [] else acc.reverse :: wsplitAux cs []
    else wsplitAux cs (c :: acc)

/-- Python `text.split()` (no separator argument). -/
def wsplit (t : Txt) : List (List Char) := wsplitAux t []

/-- `len(text.split())`: the whitespace-delimited word count. -/
def countWords (t : Txt) : Nat := (wsplit t).length

/-- Python `" ".join(words)`. -/
def joinWords : List (List Char) → List Char
  | [] => []
  | w :: [] => w
  | w :: ws => w ++ ' ' :: joinWords ws

/-- Python `str.strip()` (strip leading and trailing whitespace). -/
def pyStrip (l : Txt) : Txt :=
  ((l.dropWhile isSpace).reverse.dropWhile isSpace).reverse

/-- Python `str.rstrip()`. -/
def pyRstrip (l : Txt) : Txt :=
  (l.reverse.dropWhile isSpace).reverse

/-- The sentence-ending characters of the truncation regex
`[\.\!\?\|।]` in `_truncate_to_words_sentence_aware`
(`.` `!` `?` `|` and the Devanagari danda). -/
def isSentencePunct (c : Char) : Bool :=
  c = '.' || c = '!' || c = '?' || c = '|' || c = '।'

/-- Does the regex `[\.\!\?\|।]\s` match at offset `p` of `l`? -/
def matchBoundaryAt (l : Txt) (p : Nat) : Bool :=
  match l.drop p with
  | a :: b :: _ => isSentencePunct a && isSpace b
  | _ => false

/-- `match.end()` of the *last* match of `[\.\!\?\|।]\s` in `l`,
as computed by the `finditer` loop in `_truncate_to_words_sentence_aware`.
(The pattern has length 2 and its two character classes are disjoint, so
no two matches can overlap and the non-overlapping `finditer` scan finds
every position where the pattern matches; keeping the last `match.end()`
is therefore the greatest `p + 2` with a match at `p`.) -/
def lastBoundaryIdx (l : Txt) : Option Nat :=
  (List.range l.length).foldl
    (fun acc p => if matchBoundaryAt l p then some (p + 2) else acc) none

/-- `_truncate_to_words_sentence_aware(text, max_words)`. -/
def truncate_to_words_sentence_aware (text : Txt) (max_words : Nat) : Txt :=
  let words := wsplit text
  if words.length ≤ max_words then text
  else
    let provisional := joinWords (words.take max_words)
    match lastBoundaryIdx provisional with
    | some idx => pyStrip (provisional.take idx)
    | none => pyStrip provisional

/-- The terminators accepted by `_ensure_sentence_boundary`:
regex `[\.\!\?।]$` (note: no `|`, unlike the truncation regex). -/
def isTerminator (c : Char) : Bool :=
  c = '.' || c = '!' || c = '?' || c = '।'

/-- Does the text end with an accepted sentence terminator?
(`re.search(r"[\.\!\?।]$", cleaned)`; `cleaned` is right-stripped,
so `$` can only match at the very end.) -/
def endsWithTerminator (l : Txt) : Bool :=
  match l.getLast? with
  | some c => isTerminator c
  | none => false

/-- `_ensure_sentence_boundary(text)`. -/
def ensure_sentence_boundary (text : Txt) : Txt :=
  let cleaned := pyRstrip text
  if endsWithTerminator cleaned then cleaned else cleaned ++ ['.']

/-! ## `_clean_response_text`

Step by step translation of the cleaning function.  The initial
`text.encode('utf-8', errors='ignore').decode('utf-8')` round-trip only
removes lone surrogate code points, which `Char` (unicode scalar values)
cannot represent, so it is the identity on the model's domain. -/

/-- The zero-width characters removed by
`re.sub over the range U+200B..U+200D plus U+FEFF`. -/
def isZeroWidth (c : Char) : Bool :=
  c = '\u200B' || c = '\u200C' || c = '\u200D' || c = '\uFEFF'

/-- All possible end offsets at which the regex fragment `\s*\n` can match
a prefix of `l`, in the backtracking engine's greedy preference order
(longest `\s*` first).  A nonempty result means the fragment matches. -/
def wsNlEnds : List Char → List Nat
  | [] => []
  | c :: cs =>
    if isSpace c then
      (wsNlEnds cs).map (· + 1) ++ (if c = '\n' then [1] else [])
    else []

/-- Length of the match of `\n\s*\n\s*\n` at the *start* of `l`, if any,
following Python `re`'s leftmost/greedy backtracking: after the leading
`\n`, try ends `e1` of the first `\s*\n` in greedy order until the second
`\s*\n` can match, and take that second fragment's greedy-first end. -/
def tripleLen (l : List Char) : Option Nat :=
  match l with
  | '\n' :: rest =>
    match (wsNlEnds rest).find? (fun e1 => !(wsNlEnds (rest.drop e1)).isEmpty) with
    | some e1 =>
      match wsNlEnds (rest.drop e1) with
      | e2 :: _ => some (1 + e1 + e2)
      | [] => none
    | none => none
  | _ => none

/-- Structural worker for `subTriple`: the fuel bounds the number of
scan steps (one unit per consumed character suffices, since every match
consumes at least its own length). -/
def subTripleFuel : Nat → List Char → List Char
  | 0, l => l
  | _, [] => []
  | fuel + 1, c :: cs =>
    match tripleLen (c :: cs) with
    | some k => '\n' :: '\n' :: subTripleFuel fuel (cs.drop (k - 1))
    | none => c :: subTripleFuel fuel cs

/-- `re.sub(r'\n\s*\n\s*\n', '\n\n', _)`: scan left to right, replace each
leftmost match by two newlines, resume after the match.  (Every match has
length ≥ 3, so resuming at `cs.drop (k - 1)` after consuming the head is
the same as resuming at `(c :: cs).drop k`.) -/
def subTriple (l : List Char) : List Char := subTripleFuel l.length l

/-- A character counted by `[ \t]+`. -/
def isBlankTab (c : Char) : Bool := c = ' ' || c = '\t'

/-- Structural worker for `collapseSpaces` (fuel as in `subTripleFuel`). -/
def collapseSpacesFuel : Nat → List Char → List Char
  | 0, l => l
  | _, [] => []
  | fuel + 1, c :: cs =>
    if isBlankTab c then ' ' :: collapseSpacesFuel fuel (cs.dropWhile isBlankTab)
    else c :: collapseSpacesFuel fuel cs

/-- `re.sub(r'[ \t]+', ' ', _)`: each maximal run of spaces/tabs becomes a
single space. -/
def collapseSpaces (l : List Char) : List Char := collapseSpacesFuel l.length l

/-- Python `str.replace('\r\n', '\n')` (left-to-right, non-overlapping). -/
def replaceCrLf : List Char → List Char
  | [] => []
  | [c] => [c]
  | c :: d :: cs =>
    if c = '\r' ∧ d = '\n' then '\n' :: replaceCrLf cs
    else c :: replaceCrLf (d :: cs)

/-- Python `str.replace('\r', '\n')`. -/
def replaceCr (l : List Char) : List Char :=
  l.map (fun c => if c = '\r' then '\n' else c)

/-- `_clean_response_text(text)`: drop zero-width characters, drop
replacement characters (`re.sub(r'�+', '', _)` deletes exactly the
`�` occurrences), collapse 3+ newline groups, collapse space/tab
runs, then normalise line endings. -/
def clean_response_text (text : Txt) : Txt :=
  let c1 := text.filter (fun c => !isZeroWidth c)
  let c2 := c1.filter (fun c => c ≠ '\uFFFD')
  let c3 := subTriple c2
  let c4 := collapseSpaces c3
  replaceCr (replaceCrLf c4)

/-! ## Line handling, item-count heuristics -/

/-- Python `text.split('\n')`: split at every newline, keeping empty
pieces (so the result is always nonempty). -/
def splitOnNl : List Char → List (List Char)
  | [] => [[]]
  | c :: cs =>
    if c = '\n' then [] :: splitOnNl cs
    else
      match splitOnNl cs with
      | l :: ls => (c :: l) :: ls
      | [] => [[c]]

/-- Regex `\w` (ASCII part): letters, digits, underscore. -/
def isWordChar (c : Char) : Bool := c.isAlphanum || c = '_'

/-- Parse a run of ASCII digits as a number (`int(...)` on the matched
group, which is always a nonempty digit string). -/
def digitsToNat (ds : List Char) : Nat :=
  ds.foldl (fun acc d => 10 * acc + (d.toNat - '0'.toNat)) 0

/-- `re.match(r"^(?:\d+[\).]|[-*]\s)\s*", ln)` as a boolean: the line
starts with digits followed by `)` or `.`, or with `-`/`*` followed by a
whitespace character.  (Backtracking inside `\d+` cannot help: a shorter
digit run leaves a digit where `[\).]` must match.) -/
def itemPat1 (l : Txt) : Bool :=
  match l with
  | c :: rest =>
    if c.isDigit then
      match rest.dropWhile Char.isDigit with
      | d :: _ => d = ')' || d = '.'
      | [] => false
    else if c = '-' || c = '*' then
      match rest with
      | d :: _ => isSpace d
      | [] => false
    else false
  | [] => false

/-- Tail of `itemPat2` after the `\w+` prefix: `\s*\d+\s*\*\*`.
(`\s*` and `\d+` are matched greedily; shrinking them cannot create a
match because the next required character class is disjoint.) -/
def itemPat2Tail (l : Txt) : Bool :=
  match l.dropWhile isSpace with
  | d :: _ =>
    d.isDigit &&
      (match ((l.dropWhile isSpace).dropWhile Char.isDigit).dropWhile isSpace with
       | '*' :: '*' :: _ => true
       | _ => false)
  | [] => false

/-- `re.match(r"^\*\*\s*\w+\s*\d+\s*\*\*", ln)` as a boolean.  `\w+` needs
real backtracking (it can swallow the digits that `\d+` must match), so
every split point of the maximal word-character run is tried. -/
def itemPat2 (l : Txt) : Bool :=
  match l with
  | '*' :: '*' :: rest =>
    let r1 := rest.dropWhile isSpace
    let wlen := (r1.takeWhile isWordChar).length
    (List.range wlen).any (fun i => itemPat2Tail (r1.drop (i + 1)))
  | _ => false

/-- After one of the literals of `(?:laptop|phone|item)` (case-insensitive,
checked on the lowercased line): `\s*\d+[:\-]`. -/
def itemPat3Tail (l : Txt) : Bool :=
  match l.dropWhile isSpace with
  | d :: _ =>
    d.isDigit &&
      (match (l.dropWhile isSpace).dropWhile Char.isDigit with
       | e :: _ => e = ':' || e = '-'
       | [] => false)
  | [] => false

/-- `re.match(r"^(?:laptop|phone|item)\s*\d+[:\-]", ln, re.IGNORECASE)`. -/
def itemPat3 (l : Txt) : Bool :=
  let low := l.map Char.toLower
  (List.isPrefixOf "laptop".toList low && itemPat3Tail (low.drop 6)) ||
  (List.isPrefixOf "phone".toList low && itemPat3Tail (low.drop 5)) ||
  (List.isPrefixOf "item".toList low && itemPat3Tail (low.drop 4))

/-- `_count_list_items(text)`: strip each line and count lines matching
one of the three enumerated-item patterns (the `elif` chain counts a line
at most once, i.e. it counts lines where at least one pattern matches). -/
def count_list_items (text : Txt) : Nat :=
  ((splitOnNl text).map pyStrip).countP
    (fun ln => itemPat1 ln || itemPat2 ln || itemPat3 ln)

/-- One step of `re.findall(r"top\s+(\d+)", text, re.IGNORECASE)` at the
head of `low` (already lowercased): if `top` + `\s+` + `\d+` matches here,
return the matched number and the total match length. -/
def topMatchHere (low : Txt) : Option (Nat × Nat) :=
  if List.isPrefixOf "top".toList low then
    let r := low.drop 3
    let sp := r.takeWhile isSpace
    if sp.isEmpty then none
    else
      let d := (r.dropWhile isSpace).takeWhile Char.isDigit
      if d.isEmpty then none
      else some (digitsToNat d, 3 + sp.length + d.length)
  else none

/-- Structural worker for `findTopMatches` (fuel bounds scan steps). -/
def findTopMatchesFuel : Nat → List Char → List Nat
  | 0, _ => []
  | _, [] => []
  | fuel + 1, c :: cs =>
    match topMatchHere (c :: cs) with
    | some nl => nl.1 :: findTopMatchesFuel fuel (cs.drop (nl.2 - 1))
    | none => findTopMatchesFuel fuel cs

/-- Leftmost non-overlapping scan collecting all `top\s+(\d+)` matches.
(Every match has length ≥ 5, so resuming at `cs.drop (len - 1)` after the
consumed head equals resuming at `(c :: cs).drop len`.) -/
def findTopMatches (l : List Char) : List Nat := findTopMatchesFuel l.length l

/-- The noun alternatives of the second pattern, each with an optional
trailing `s` (the regex `items?|laptops?|phones?|mobiles?|tips?|points?`). -/
def nounStems : List (List Char) :=
  ["item".toList, "laptop".toList, "phone".toList,
   "mobile".toList, "tip".toList, "point".toList]

/-- End-of-word check for the final `\b` of the noun pattern. -/
def boundaryAfter (l : Txt) : Bool :=
  match l with
  | [] => true
  | c :: _ => !isWordChar c

/-- One step of `re.findall(r"\b(\d+)\s*(?:items?|...|points?)\b", ...)`:
match at the head of `low` given whether a word boundary `\b` holds here
(`prevIsWord` is whether the previous character was a word character).
Returns the number and total match length. -/
def nounMatchHere (prevIsWord : Bool) (low : Txt) : Option (Nat × Nat) :=
  if prevIsWord then none
  else
    let d := low.takeWhile Char.isDigit
    if d.isEmpty then none
    else
      let r := low.drop d.length
      let sp := r.takeWhile isSpace
      let r2 := r.dropWhile isSpace
      match nounStems.find? (fun stem =>
        List.isPrefixOf stem r2 &&
          (match r2.drop stem.length with
           | 's' :: r3 => boundaryAfter r3
           | r3 => boundaryAfter r3)) with
      | some stem =>
        let stemLen :=
          match r2.drop stem.length with
          | 's' :: r3 => if boundaryAfter r3 then stem.length + 1 else stem.length
          | _ => stem.length
        some (digitsToNat d, d.length + sp.length + stemLen)
      | none => none

/-- Structural worker for `findNounMatches` (fuel bounds scan steps). -/
def findNounMatchesFuel : Nat → Bool → List Char → List Nat
  | 0, _, _ => []
  | _, _, [] => []
  | fuel + 1, prevIsWord, c :: cs =>
    match nounMatchHere prevIsWord (c :: cs) with
    | some nl => nl.1 :: findNounMatchesFuel fuel true (cs.drop (nl.2 - 1))
    | none => findNounMatchesFuel fuel (isWordChar c) cs

/-- Leftmost non-overlapping scan for the noun pattern.  The flag passed
on records whether the character before the resume point is a word
character (for the next `\b`); every match ends in a letter of the noun,
hence `true` after a match.  (Every match has length ≥ 4, so resuming at
`cs.drop (len - 1)` equals resuming at `(c :: cs).drop len`.) -/
def findNounMatches (prevIsWord : Bool) (l : List Char) : List Nat :=
  findNounMatchesFuel l.length prevIsWord l

/-- `_extract_expected_item_count(topic, additional_context)`:
`" ".join([t for t in [topic, additional_context] if t])`, collect the
numbers matched by both patterns over the lowercased text (`re.IGNORECASE`),
return their maximum, or `None` when there is no match. -/
def extract_expected_item_count (topic : Txt) (additional_context : Option Txt) :
    Option Nat :=
  let pieces := ([some topic, additional_context].filterMap id).filter (· ≠ [])
  let text := joinWords pieces
  let low := text.map Char.toLower
  let candidates := findTopMatches low ++ findNounMatches false low
  match candidates with
  | [] => none
  | n :: ns => some (ns.foldl max n)

/-! ## Section reformatting and `_post_process_script` -/

/-- The keyword tuple of
`line.lower().startswith(('hook', 'intro', 'main', 'conclusion', 'outro', 'cta'))`. -/
def sectionKeywords : List (List Char) :=
  ["hook".toList, "intro".toList, "main".toList,
   "conclusion".toList, "outro".toList, "cta".toList]

/-- Does a (stripped) line start a recognised section? -/
def isSectionLine (line : Txt) : Bool :=
  sectionKeywords.any (fun kw => List.isPrefixOf kw (line.map Char.toLower))

/-- The line-parsing half of `_post_process_script`: split into lines,
strip each, drop empties, promote section lines to `"\n[{upper}]\n"`
(`str.upper()` modelled on ASCII letters), join everything with `"\n"`. -/
def reformat_sections (raw_script : Txt) : Txt :=
  let lines := splitOnNl raw_script
  let cleaned_lines := (lines.map pyStrip).filter (fun l => l ≠ [])
  let formatted_script := cleaned_lines.map (fun line =>
    if isSectionLine line then
      '\n' :: '[' :: ((pyStrip line).map Char.toUpper ++ ']' :: ['\n'])
    else line)
  List.intercalate ['\n'] formatted_script

/-- The final script and its reported word count, as assembled by
`_post_process_script`.  The speaking-time estimate, timing suggestions
and pattern markers of the source's result dict are derived reporting
data not touched by any claim and are omitted from the model (the
`target_minutes` argument of the source only feeds those outputs). -/
structure Processed where
  script : Txt
  word_count : Nat
deriving Repr, DecidableEq

/-- `_post_process_script(raw_script, target_minutes, hard_word_cap)`:
reformat, truncate to the cap, guarantee the sentence boundary, count. -/
def post_process_script (raw_script : Txt) (hard_word_cap : Nat) : Processed :=
  let script0 := reformat_sections raw_script
  let script1 := truncate_to_words_sentence_aware script0 hard_word_cap
  let script2 := ensure_sentence_boundary script1
  { script := script2, word_count := countWords script2 }

/-! ## The `generate_script` orchestration

The external `self.model.generate_content(...)` call is an oracle indexed
by the number of calls issued so far inside one `generate_script`
invocation; `.error e` models the call raising an exception with message
`str(e) = e`.  Prompt-only parameters of the source (`tone`,
`target_audience`, `content_type`, `creator_style`,
`force_hinglish_ascii`) only influence the prompt text sent to the
service, which the oracle abstraction already quantifies over, so they
are not parameters of the model. -/

/-- One safety rating of a response candidate
(`rating.category`, `getattr(rating, 'probability', None)`). -/
structure SafetyRating where
  category : Txt
  probability : Option Txt
deriving Repr, DecidableEq

/-- One text part of a candidate's content. -/
structure ResponsePart where
  text : Option Txt
deriving Repr, DecidableEq

/-- A candidate's content (`cand.content`, with `content.parts`). -/
structure ResponseContent where
  parts : List ResponsePart
deriving Repr, DecidableEq

/-- One response candidate. -/
structure ResponseCandidate where
  content : Option ResponseContent
  safety_ratings : List SafetyRating
deriving Repr, DecidableEq

/-- A Gemini response: its candidate list and the quick `.text` accessor
(`None` models both an absent and a raising accessor — the source guards
every direct use either by `response.candidates` or by `getattr`). -/
structure GenResponse where
  candidates : List ResponseCandidate
  text : Option Txt
deriving Repr, DecidableEq

/-- Python truthiness of an optional string: present and nonempty. -/
def textTruthy : Option Txt → Bool
  | some t => t ≠ []
  | none => false

/-- `str(response)` fallback of `_extract_text_from_response`: the
environment-specific nonempty `repr` of the response object, modelled as
a fixed nonempty placeholder. -/
def strOfResponse (_r : GenResponse) : Txt :=
  "<google.generativeai response object>".toList

/-- The candidate/parts loop of `_extract_text_from_response`: the first
candidate having content with at least one truthy text part yields the
`"\n"`-join of its truthy parts. -/
def extractFromParts (r : GenResponse) : Option Txt :=
  (r.candidates.filterMap (fun cand =>
    match cand.content with
    | some content =>
      let parts_text := content.parts.filterMap (fun p =>
        match p.text with
        | some t => if t ≠ [] then some t else none
        | none => none)
      if parts_text ≠ [] then some (List.intercalate ['\n'] parts_text)
      else none
    | none => none)).head?

/-- `_extract_text_from_response(response)`: quick accessor if truthy,
else the candidate/parts loop, else the string fallback. -/
def extract_text_from_response (r : GenResponse) : Option Txt :=
  if textTruthy r.text then r.text
  else some ((extractFromParts r).getD (strOfResponse r))

/-- The word-cap resolution at the top of `generate_script`:
`default_target_words = max(150, int(length_minutes * 150))`; a truthy
positive `requested_word_cap` is clamped by
`max(200, min(5000, int(requested_word_cap)))`, otherwise the cap is
`min(2000, default_target_words)`. -/
def resolve_hard_word_cap (length_minutes : Nat) (requested_word_cap : Option Int) :
    Nat :=
  let default_target_words : Int := max 150 ((length_minutes : Int) * 150)
  match requested_word_cap with
  | some r =>
    if r ≠ 0 ∧ 0 < r then (max 200 (min 5000 r)).toNat
    else (min 2000 default_target_words).toNat
  | none => (min 2000 default_target_words).toNat

/-- The per-candidate moderation scan of `generate_script`:
`f"{rating.category}: {rating.probability}"` for every rating whose
probability is the string `'HIGH'` or `'MEDIUM'`. -/
def blocked_categories (cand : ResponseCandidate) : List Txt :=
  cand.safety_ratings.filterMap (fun rating =>
    match rating.probability with
    | some p =>
      if p = "HIGH".toList ∨ p = "MEDIUM".toList then
        some (rating.category ++ ':' :: ' ' :: p)
      else none
    | none => none)

/-- The error message produced when `blocked_categories` is nonempty. -/
def blocked_message (bs : List Txt) : Txt :=
  "Content blocked by safety filters: ".toList ++
    List.intercalate ", ".toList bs ++
    ". Try rephrasing your topic or context.".toList

/-- Error message when both the first call and the simple-prompt fallback
yield no usable candidates. -/
def blocked_simple_message : Txt :=
  "Content blocked by safety filters. Please try a different topic or rephrase your request.".toList

/-- Error message when no text can be extracted. -/
def no_text_message : Txt :=
  "No text content generated. The response may have been blocked or filtered.".toList

/-- The result dictionary of `generate_script`, restricted to the fields
the claims are about (`success`, `script`, `error`, and the
`estimated_word_count` metadata entry).  On failure the source's dict has
no script/word-count keys; the model uses `[]`/`0` there. -/
structure GenResult where
  success : Bool
  script : Txt
  error : Option Txt
  word_count : Nat
deriving Repr, DecidableEq

/-- A failure result with message `e`. -/
def mkFailure (e : Txt) : GenResult :=
  { success := false, script := [], error := some e, word_count := 0 }

/-- Execution trace of one `generate_script` call, recorded alongside the
result so that theorems can speak about the control flow: total number of
oracle calls, whether the continuation block (`if needs_more:`) was
entered, how many continuation calls were issued, whether the guided
continuation was issued and with which guidance string, the word count of
the first extracted text, the accumulated text after the generic
continuation attempt, and the text entering truncation. -/
structure GenTrace where
  calls : Nat
  entered_continuation : Bool
  continuation_calls : Nat
  guided_issued : Bool
  guidance : Option Txt
  extracted_wc : Nat
  after_generic : Txt
  pre_trunc : Txt
deriving Repr, DecidableEq

/-- Trace of a run that never reached the continuation stage. -/
def emptyTrace (k : Nat) : GenTrace :=
  ⟨k, false, 0, false, none, 0, [], []⟩

/-- The initial call plus the simpler-prompt fallback
(`if not response.candidates: ... retry ... if not response.candidates or
not response.text: fail`).  Returns the response reaching the
safety-rating check together with the number of calls issued, or the
failure message and call count. -/
def acquire_response (oracle : Nat → Except Txt GenResponse) :
    Except (Txt × Nat) (GenResponse × Nat) :=
  match oracle 0 with
  | .error e => .error (e, 1)
  | .ok r0 =>
    if r0.candidates.isEmpty then
      match oracle 1 with
      | .error e => .error (e, 2)
      | .ok r1 =>
        if r1.candidates.isEmpty || !textTruthy r1.text then
          .error (blocked_simple_message, 2)
        else .ok (r1, 2)
    else .ok (r0, 1)

/-- The response examined by the safety-rating check of
`generate_script`: either the initial response (when it has candidates),
or the fallback response (when the initial one had none and the fallback
produced candidates and truthy text). -/
def reaches_safety_check (oracle : Nat → Except Txt GenResponse)
    (r : GenResponse) : Prop :=
  (oracle 0 = .ok r ∧ r.candidates ≠ []) ∨
  (∃ r0, oracle 0 = .ok r0 ∧ r0.candidates = [] ∧ oracle 1 = .ok r ∧
    r.candidates ≠ [] ∧ textTruthy r.text = true)

/-- `_attempt_continuation(current_text, hard_word_cap, config)`: fewer
than 50 remaining words means return unchanged without calling; an
exception inside the `try` is swallowed (`return current_text`); a truthy
`more.text` is appended after a blank line and the result immediately
truncated to the cap. -/
def attempt_continuation (oracle : Nat → Except Txt GenResponse) (k : Nat)
    (current_text : Txt) (hard_word_cap : Nat) : Txt × Nat :=
  let remaining_words : Int := max 0 ((hard_word_cap : Int) - countWords current_text)
  if remaining_words < 50 then (current_text, k)
  else
    match oracle k with
    | .error _ => (current_text, k + 1)
    | .ok more =>
      if textTruthy more.text then
        (truncate_to_words_sentence_aware
          (pyRstrip current_text ++ '\n' :: '\n' :: pyStrip (more.text.getD []))
          hard_word_cap,
         k + 1)
      else (current_text, k + 1)

/-- `_attempt_guided_continuation`: identical control flow; the guidance
string only changes the prompt, which the oracle abstracts. -/
def attempt_guided_continuation (oracle : Nat → Except Txt GenResponse) (k : Nat)
    (current_text : Txt) (hard_word_cap : Nat) (_guidance : Txt) : Txt × Nat :=
  attempt_continuation oracle k current_text hard_word_cap

/-- The guidance string
`f"Continue with items {current_items+1} to {expected_items}. ..."`. -/
def continuation_guidance (current_items expected_items : Nat) : Txt :=
  "Continue with items ".toList ++ (toString (current_items + 1)).toList ++
    " to ".toList ++ (toString expected_items).toList ++
    ". Keep each item concise and balanced. Do not repeat. ".toList

/-- Outcome of the continuation block of `generate_script`. -/
structure ContOutcome where
  accumulated : Txt
  k : Nat
  entered : Bool
  after_generic : Txt
  guided : Bool
  guidance : Option Txt
deriving Repr, DecidableEq

/-- The continuation block of `generate_script` (lines 411–427):
`needs_more` is word count below `int(hard_word_cap * 0.85)` — modelled
as `hard_word_cap * 17 / 20`, which equals the Python value for every cap
the pipeline can resolve (caps lie in [150, 5000]; for `c ≤ 5000` the
double rounding of `c * 0.85` never crosses an integer, so
`int(c * 0.85) = ⌊17c/20⌋`) — or, when a truthy expected item count was
extracted, a detected item shortfall.  If entered: one generic
continuation, then the guided one exactly when the shortfall persists and
strictly more than 60 words of budget remain. -/
def continuation_phase (oracle : Nat → Except Txt GenResponse) (k : Nat)
    (topic : Txt) (additional_context : Option Txt)
    (script_text : Txt) (hard_word_cap : Nat) : ContOutcome :=
  let needs_more0 := decide (countWords script_text < hard_word_cap * 17 / 20)
  let expected_items := extract_expected_item_count topic additional_context
  let needs_more := needs_more0 ||
    (match expected_items with
     | some n => decide (n ≠ 0) && decide (count_list_items script_text < n)
     | none => false)
  if needs_more then
    let ck1 := attempt_continuation oracle k script_text hard_word_cap
    match expected_items with
    | some n =>
      if n ≠ 0 then
        let current_items := count_list_items ck1.1
        if current_items < n ∧ (hard_word_cap : Int) - countWords ck1.1 > 60 then
          let guidance := continuation_guidance current_items n
          let ck2 := attempt_guided_continuation oracle ck1.2 ck1.1 hard_word_cap guidance
          ⟨ck2.1, ck2.2, true, ck1.1, true, some guidance⟩
        else ⟨ck1.1, ck1.2, true, ck1.1, false, none⟩
      else ⟨ck1.1, ck1.2, true, ck1.1, false, none⟩
    | none => ⟨ck1.1, ck1.2, true, ck1.1, false, none⟩
  else ⟨script_text, k, false, script_text, false, none⟩

/-- The tail of `generate_script` after a usable `script_text` was
extracted: clean, post-process, assemble the success dictionary (plus the
execution trace). -/
def finalize_run (co : ContOutcome) (k : Nat) (script_text : Txt)
    (hard_word_cap : Nat) : GenResult × GenTrace :=
  let cleaned_text := clean_response_text co.accumulated
  let processed := post_process_script cleaned_text hard_word_cap
  ({ success := true, script := processed.script, error := none,
     word_count := processed.word_count },
   { calls := co.k, entered_continuation := co.entered,
     continuation_calls := co.k - k, guided_issued := co.guided,
     guidance := co.guidance, extracted_wc := countWords script_text,
     after_generic := co.after_generic,
     pre_trunc := reformat_sections cleaned_text })

/-- `generate_script`.  The whole body runs inside `try/except`; the only
operations that can raise are the oracle calls, of which the ones inside
the continuation helpers are swallowed locally, so the outer handler
turns exactly the `acquire_response` errors into failure results. -/
def generate_script (oracle : Nat → Except Txt GenResponse) (topic : Txt)
    (length_minutes : Nat) (additional_context : Option Txt)
    (requested_word_cap : Option Int) : GenResult × GenTrace :=
  let hard_word_cap := resolve_hard_word_cap length_minutes requested_word_cap
  match acquire_response oracle with
  | .error ek => (mkFailure ek.1, emptyTrace ek.2)
  | .ok rk =>
    let response := rk.1
    let blocked :=
      match response.candidates with
      | cand :: _ => blocked_categories cand
      | [] => []
    if blocked ≠ [] then (mkFailure (blocked_message blocked), emptyTrace rk.2)
    else
      match extract_text_from_response response with
      | none => (mkFailure no_text_message, emptyTrace rk.2)
      | some script_text =>
        if script_text = [] then (mkFailure no_text_message, emptyTrace rk.2)
        else
          finalize_run
            (continuation_phase oracle rk.2 topic additional_context
              script_text hard_word_cap)
            rk.2 script_text hard_word_cap

/-- The word-cap resolution as the specification sentence states it
("if caller supplies an override, clamp it to [200, 5000]; else resolve
to min(2000, default_target)") — spec-side definition, for comparison
with `resolve_hard_word_cap` only. -/
def spec_resolved_word_cap (length_minutes : Nat) (requested_word_cap : Option Int) :
    Nat :=
  match requested_word_cap with
  | some r => (max 200 (min 5000 r)).toNat
  | none => (min 2000 (max 150 ((length_minutes : Int) * 150))).toNat

/-! ## Style aggregation and the persisted training context

`_analyze_creator_styles`, `save_training_context`, `load_training_context`. -/

/-- Modelled from the spec: `ProcessedTranscript` is produced by
`transcript_processor.py`, which is not part of `src/`.  Per spec §3 it
is an immutable record carrying a creator identifier, title, duration,
timed text segments, a language-mix breakdown (fractions), tone markers
(numeric scores) and style markers; only the fields read by
`_analyze_creator_styles` are modelled.  Numeric fields are modelled as
`ℚ`.  A segment contributes its text when that text is truthy
(`s.get('text')`); a segment with no usable text is modelled as `""`. -/
structure ProcessedTranscript where
  uploader : String
  hindi_ratio : ℚ
  english_ratio : ℚ
  enthusiasm : ℚ
  technical_depth : ℚ
  friendliness : ℚ
  style_markers : List String
  segments : List String
deriving Repr, DecidableEq

/-- One creator's entry of the `creator_analysis` dictionary.  The nested
`language_preferences` / `tone_profile` dictionaries are flattened into
fields.  `common_patterns` is carried along but never populated by the
source. -/
structure CreatorAnalysis where
  transcripts : List ProcessedTranscript
  common_patterns : List String
  hindi_dominant : Nat
  english_dominant : Nat
  balanced : Nat
  enthusiasm : ℚ
  technical_depth : ℚ
  friendliness : ℚ
  content_style : List String
  intro_patterns : List String
  outro_patterns : List String
deriving Repr, DecidableEq

/-- The fresh per-creator record created on first sight of a creator. -/
def emptyAnalysis : CreatorAnalysis :=
  ⟨[], [], 0, 0, 0, 0, 0, 0, [], [], []⟩

/-- Python `set` contents are modelled as a duplicate-free list in first
insertion order (`set` iteration order is unspecified; the claim about
the profiles does not depend on it). -/
def setInsertAll (s : List String) (xs : List String) : List String :=
  xs.foldl (fun acc x => if x ∈ acc then acc else acc ++ [x]) s

/-- `list(set(l))` on an accumulated pattern list. -/
def pySetList (l : List String) : List String := setInsertAll [] l

/-- The per-transcript accumulation step of `_analyze_creator_styles`:
language-preference bucket (ratios compared against 0.6), tone sums,
style-marker set update, intro patterns from the first five segments and
outro patterns from the last five (`segments[-5:]`), keeping truthy
texts. -/
def updateAnalysis (t : ProcessedTranscript) (a : CreatorAnalysis) : CreatorAnalysis :=
  let a := { a with transcripts := a.transcripts ++ [t] }
  let a :=
    if t.hindi_ratio > 6/10 then { a with hindi_dominant := a.hindi_dominant + 1 }
    else if t.english_ratio > 6/10 then { a with english_dominant := a.english_dominant + 1 }
    else { a with balanced := a.balanced + 1 }
  let a := { a with
    enthusiasm := a.enthusiasm + t.enthusiasm,
    technical_depth := a.technical_depth + t.technical_depth,
    friendliness := a.friendliness + t.friendliness }
  let a := { a with content_style := setInsertAll a.content_style t.style_markers }
  { a with
    intro_patterns := a.intro_patterns ++ (t.segments.take 5).filter (· ≠ ""),
    outro_patterns :=
      a.outro_patterns ++ (t.segments.drop (t.segments.length - 5)).filter (· ≠ "") }

/-- Insert a transcript into the creator dictionary (Python dicts keep
insertion order, modelled as an association list). -/
def updateStyles (styles : List (String × CreatorAnalysis)) (t : ProcessedTranscript) :
    List (String × CreatorAnalysis) :=
  match styles with
  | [] => [(t.uploader, updateAnalysis t emptyAnalysis)]
  | ca :: rest =>
    if ca.1 = t.uploader then (ca.1, updateAnalysis t ca.2) :: rest
    else ca :: updateStyles rest t

/-- The normalisation pass: divide the tone sums by the transcript count
and convert the pattern sets/slices to lists (`list(set(x[:10]))`). -/
def normalizeAnalysis (a : CreatorAnalysis) : CreatorAnalysis :=
  { a with
    enthusiasm := a.enthusiasm / (a.transcripts.length : ℚ),
    technical_depth := a.technical_depth / (a.transcripts.length : ℚ),
    friendliness := a.friendliness / (a.transcripts.length : ℚ),
    common_patterns := a.common_patterns,
    content_style := a.content_style,
    intro_patterns := pySetList (a.intro_patterns.take 10),
    outro_patterns := pySetList (a.outro_patterns.take 10) }

/-- `_analyze_creator_styles(transcripts)`. -/
def analyze_creator_styles (transcripts : List ProcessedTranscript) :
    List (String × CreatorAnalysis) :=
  (transcripts.foldl updateStyles []).map (fun ca => (ca.1, normalizeAnalysis ca.2))

/-- A JSON document, as written by `json.dump(..., ensure_ascii=False)`
and read back by `json.load`.  The text rendering is the standard
library's and round-trips a document exactly (numbers via `repr`, which
recovers the same value), so the persisted file is modelled as the
document itself. -/
inductive JsonVal where
  | str : String → JsonVal
  | num : ℚ → JsonVal
  | arr : List JsonVal → JsonVal
  | obj : List (String × JsonVal) → JsonVal

/-- Modelled from the spec: serialisation of a `ProcessedTranscript`
record inside the saved context — spec §6 describes the persisted
artifact as a nested mapping document, so the record serialises as the
mapping of its fields. -/
def encodeTranscript (t : ProcessedTranscript) : JsonVal :=
  .obj [
    ("uploader", .str t.uploader),
    ("hindi_ratio", .num t.hindi_ratio),
    ("english_ratio", .num t.english_ratio),
    ("enthusiasm", .num t.enthusiasm),
    ("technical_depth", .num t.technical_depth),
    ("friendliness", .num t.friendliness),
    ("style_markers", .arr (t.style_markers.map .str)),
    ("segments", .arr (t.segments.map .str))]

/-- JSON form of one creator's analysis record, with the nested
`language_preferences` and `tone_profile` mappings. -/
def encodeAnalysis (a : CreatorAnalysis) : JsonVal :=
  .obj [
    ("transcripts", .arr (a.transcripts.map encodeTranscript)),
    ("common_patterns", .arr (a.common_patterns.map .str)),
    ("language_preferences", .obj [
      ("hindi_dominant", .num a.hindi_dominant),
      ("english_dominant", .num a.english_dominant),
      ("balanced", .num a.balanced)]),
    ("tone_profile", .obj [
      ("enthusiasm", .num a.enthusiasm),
      ("technical_depth", .num a.technical_depth),
      ("friendliness", .num a.friendliness)]),
    ("content_style", .arr (a.content_style.map .str)),
    ("intro_patterns", .arr (a.intro_patterns.map .str)),
    ("outro_patterns", .arr (a.outro_patterns.map .str))]

/-- JSON form of the whole `creator_styles` mapping. -/
def encodeStyles (styles : List (String × CreatorAnalysis)) : JsonVal :=
  .obj (styles.map (fun ca => (ca.1, encodeAnalysis ca.2)))

/-- `save_training_context(filepath)`: the document written to the file
(`{'creator_styles': ..., 'training_context': ..., 'generation_config':
...}`); the other two entries are whatever documents the instance holds. -/
def save_training_context (styles : List (String × CreatorAnalysis))
    (training_context generation_config : JsonVal) : JsonVal :=
  .obj [
    ("creator_styles", encodeStyles styles),
    ("training_context", training_context),
    ("generation_config", generation_config)]

/-- `load_training_context(filepath)`: parse the file and take
`context_data.get('creator_styles', {})` (the loaded profiles stay in
their JSON form — the source does not rebuild objects).  `none` models
the exception path returning `False`. -/
def load_training_context (file : JsonVal) : Option JsonVal :=
  match file with
  | .obj kvs => some ((kvs.lookup "creator_styles").getD (.obj []))
  | _ => none

/-- Read the averaged tone-profile vector back out of a loaded
per-creator JSON mapping. -/
def toneTriple (j : JsonVal) : Option (ℚ × ℚ × ℚ) :=
  match j with
  | .obj kvs =>
    match kvs.lookup "tone_profile" with
    | some (.obj tp) =>
      match tp.lookup "enthusiasm", tp.lookup "technical_depth",
            tp.lookup "friendliness" with
      | some (.num a), some (.num b), some (.num c) => some (a, b, c)
      | _, _, _ => none
    | _ => none
  | _ => none

/-- Equivalence of a profile mapping with a loaded JSON mapping: the same
creators in the same order, each with exactly the original averaged
tone-profile vector. -/
def tonesMatch : List (String × CreatorAnalysis) → List (String × JsonVal) → Bool
  | [], [] => true
  | na :: rest, nj :: rest' =>
    decide (na.1 = nj.1) &&
      decide (toneTriple nj.2 = some (na.2.enthusiasm, na.2.technical_depth, na.2.friendliness)) &&
      tonesMatch rest rest'
  | _, _ => false

/-! ## Run-structure predicates used to analyse the cleaning step -/

/-- Number of newlines inside the leading whitespace run of a text. -/
def nlRunCount (l : List Char) : Nat :=
  (l.takeWhile isSpace).countP (fun c => c = '\n')

/-- No whitespace run of the text contains three or more newlines: after
any newline, the following whitespace run holds at most one more.  This
is exactly the absence of a `\n\s*\n\s*\n` match anywhere. -/
def GoodRuns (l : List Char) : Prop :=
  ∀ i rest, l.drop i = '\n' :: rest → nlRunCount rest ≤ 1

/-! ## Concrete service behaviours and inputs used by witnesses and
counterexamples -/

/-- A candidate without content or safety ratings. -/
def plainCandidate : ResponseCandidate := { content := none, safety_ratings := [] }

/-- A response whose quick accessor yields `t`. -/
def mkOkResponse (t : Txt) : GenResponse :=
  { candidates := [plainCandidate], text := some t }

/-- A response with a candidate but no extract-able text accessor. -/
def noTextResponse : GenResponse := { candidates := [plainCandidate], text := none }

/-- A 170-word text. -/
def sampleWords170 : Txt := joinWords (List.replicate 170 ['w'])

/-- A 140-word text containing three enumerated items. -/
def sampleItems140 : Txt :=
  "1. a\n2. a\n3. a\n".toList ++ joinWords (List.replicate 134 ['a'])

/-- Service always answering with the 170-word text. -/
def oracleShort170 : Nat → Except Txt GenResponse :=
  fun _ => .ok (mkOkResponse sampleWords170)

/-- Service answering first with the three-item 140-word text, then with
responses carrying no text. -/
def oracleItems : Nat → Except Txt GenResponse :=
  fun n => if n = 0 then .ok (mkOkResponse sampleItems140) else .ok noTextResponse

/-- Service whose first call succeeds with a short text and whose later
calls raise an exception. -/
def oracleRaising : Nat → Except Txt GenResponse :=
  fun n =>
    if n = 0 then .ok (mkOkResponse "hello world".toList)
    else .error "boom".toList

/-- A safety rating flagged `MEDIUM` on one harm category. -/
def flaggedRating : SafetyRating :=
  { category := "HARM_CATEGORY_HATE_SPEECH".toList,
    probability := some "MEDIUM".toList }

/-- A candidate carrying the flagged rating. -/
def flaggedCandidate : ResponseCandidate :=
  { content := none, safety_ratings := [flaggedRating] }

/-- Service response with a `MEDIUM`-flagged candidate. -/
def flaggedResponse : GenResponse :=
  { candidates := [flaggedCandidate], text := some "hello".toList }

/-- Service always answering with the flagged response. -/
def oracleFlagged : Nat → Except Txt GenResponse := fun _ => .ok flaggedResponse

/-- Service always answering with a short complete text. -/
def oracleSmallOk : Nat → Except Txt GenResponse :=
  fun _ => .ok (mkOkResponse "a b.".toList)

/-- Service raising on the very first call. -/
def oracleFailFirst : Nat → Except Txt GenResponse :=
  fun _ => .error "rate limit".toList

/-- A topic with no detectable enumerated-item count. -/
def topicPlain : Txt := "laptops review".toList

/-- A topic whose detected expected item count is 5. -/
def topicTop5 : Txt := "Top 5 laptops".toList

/-! ## Lemmas: words, joins, and sentence-aware truncation -/

/-- A word as produced by `str.split()`: nonempty and whitespace-free. -/
def goodWord (w : List Char) : Prop :=
  w ≠ [] ∧ ∀ c ∈ w, isSpace c = false

theorem wsplitAux_good : ∀ (l acc : List Char),
    (∀ c ∈ acc, isSpace c = false) → ∀ w ∈ wsplitAux l acc, goodWord w := by
  intro l
  induction l with
  | nil =>
    intro acc hacc w hw
    simp only [wsplitAux] at hw
    split at hw
    · simp at hw
    · next h =>
      simp only [List.mem_singleton] at hw
      subst hw
      refine ⟨by simpa [List.isEmpty_iff] using h, ?_⟩
      intro c hc
      exact hacc c (List.mem_reverse.mp hc)
  | cons c cs ih =>
    intro acc hacc w hw
    simp only [wsplitAux] at hw
    by_cases hsp : isSpace c
    · simp only [hsp, if_true] at hw
      split at hw
      · exact ih [] (by simp) w hw
      · next h =>
        rcases List.mem_cons.mp hw with h1 | h1
        · subst h1
          refine ⟨by simpa [List.isEmpty_iff] using h, ?_⟩
          intro d hd
          exact hacc d (List.mem_reverse.mp hd)
        · exact ih [] (by simp) w h1
    · simp only [hsp, if_false, Bool.false_eq_true] at hw
      refine ih (c :: acc) ?_ w hw
      intro d hd
      rcases List.mem_cons.mp hd with h1 | h1
      · subst h1; simpa using hsp
      · exact hacc d h1

theorem wsplit_good (t : Txt) : ∀ w ∈ wsplit t, goodWord w :=
  wsplitAux_good t [] (by simp)

theorem wsplitAux_word_prefix : ∀ (w l acc : List Char),
    (∀ c ∈ w, isSpace c = false) →
    wsplitAux (w ++ l) acc = wsplitAux l (w.reverse ++ acc) := by
  intro w
  induction w with
  | nil => intro l acc _; simp
  | cons c cs ih =>
    intro l acc hw
    have hc : isSpace c = false := hw c (by simp)
    simp only [List.cons_append, wsplitAux, hc, Bool.false_eq_true, if_false,
      List.append_eq]
    rw [ih l (c :: acc) (fun d hd => hw d (by simp [hd]))]
    simp

theorem wsplitAux_space (c : Char) (l acc : List Char) (hc : isSpace c = true)
    (hacc : acc ≠ []) :
    wsplitAux (c :: l) acc = acc.reverse :: wsplitAux l [] := by
  simp only [wsplitAux, hc, if_true]
  rw [if_neg (by simpa [List.isEmpty_iff] using hacc)]

theorem joinWords_cons_cons (w x : List Char) (ws : List (List Char)) :
    joinWords (w :: x :: ws) = w ++ ' ' :: joinWords (x :: ws) := rfl

theorem wsplit_joinWords : ∀ ws : List (List Char),
    (∀ w ∈ ws, goodWord w) → wsplit (joinWords ws) = ws := by
  intro ws
  induction ws with
  | nil => intro _; rfl
  | cons w ws ih =>
    intro h
    have hw := h w (by simp)
    cases ws with
    | nil =>
      show wsplitAux (joinWords [w]) [] = [w]
      have : joinWords [w] = w ++ [] := by simp [joinWords]
      rw [this, wsplitAux_word_prefix w [] [] hw.2]
      simp only [wsplitAux, List.append_nil]
      rw [if_neg (by simpa [List.isEmpty_iff] using (by simpa using hw.1 : w.reverse ≠ []))]
      simp
    | cons x ws' =>
      show wsplitAux (joinWords (w :: x :: ws')) [] = w :: x :: ws'
      rw [joinWords_cons_cons, wsplitAux_word_prefix w (' ' :: joinWords (x :: ws')) [] hw.2]
      rw [List.append_nil, wsplitAux_space ' ' _ _ (by simp [isSpace]) (by simpa using hw.1)]
      rw [List.reverse_reverse]
      exact congrArg (w :: ·) (ih (fun u hu => h u (by simp [hu])))

theorem countWords_joinWords (ws : List (List Char)) (h : ∀ w ∈ ws, goodWord w) :
    countWords (joinWords ws) = ws.length := by
  unfold countWords
  rw [wsplit_joinWords ws h]

theorem mem_joinWords : ∀ (ws : List (List Char)) (c : Char),
    c ∈ joinWords ws → (∃ w ∈ ws, c ∈ w) ∨ c = ' ' := by
  intro ws
  induction ws with
  | nil => intro c hc; simp [joinWords] at hc
  | cons w ws ih =>
    intro c hc
    cases ws with
    | nil =>
      left; exact ⟨w, by simp, by simpa [joinWords] using hc⟩
    | cons x ws' =>
      rw [joinWords_cons_cons] at hc
      rcases List.mem_append.mp hc with h1 | h1
      · exact Or.inl ⟨w, by simp, h1⟩
      · rcases List.mem_cons.mp h1 with h2 | h2
        · exact Or.inr h2
        · rcases ih c h2 with ⟨u, hu, hcu⟩ | h3
          · exact Or.inl ⟨u, by simp [hu], hcu⟩
          · exact Or.inr h3

theorem head?_dropWhile {p : Char → Bool} : ∀ (l : List Char) (c : Char),
    (l.dropWhile p).head? = some c → p c = false := by
  intro l
  induction l with
  | nil => intro c hc; simp at hc
  | cons a l ih =>
    intro c hc
    rw [List.dropWhile_cons] at hc
    split at hc
    · exact ih c hc
    · next h =>
      simp only [List.head?_cons, Option.some.injEq] at hc
      subst hc
      simpa using h

theorem joinWords_head (ws : List (List Char)) (h : ∀ w ∈ ws, goodWord w)
    (hne : ws ≠ []) : ∃ d r, joinWords ws = d :: r ∧ isSpace d = false := by
  cases ws with
  | nil => exact absurd rfl hne
  | cons w ws =>
    have hw := h w (by simp)
    obtain ⟨d, w0, hdw⟩ : ∃ d w0, w = d :: w0 := by
      cases w with
      | nil => exact absurd rfl hw.1
      | cons d w0 => exact ⟨d, w0, rfl⟩
    have hd : isSpace d = false := hw.2 d (by simp [hdw])
    cases ws with
    | nil => exact ⟨d, w0, by simp [joinWords, hdw], hd⟩
    | cons x ws' =>
      exact ⟨d, w0 ++ ' ' :: joinWords (x :: ws'), by simp [joinWords_cons_cons, hdw], hd⟩

theorem joinWords_ne_nil (ws : List (List Char)) (h : ∀ w ∈ ws, goodWord w)
    (hne : ws ≠ []) : joinWords ws ≠ [] := by
  obtain ⟨d, r, hdr, -⟩ := joinWords_head ws h hne
  simp [hdr]

theorem joinWords_reverse_head (ws : List (List Char)) (h : ∀ w ∈ ws, goodWord w)
    (hne : ws ≠ []) :
    ∃ d r, (joinWords ws).reverse = d :: r ∧ isSpace d = false := by
  induction ws with
  | nil => exact absurd rfl hne
  | cons w ws ih =>
    have hw := h w (by simp)
    cases ws with
    | nil =>
      obtain ⟨d, r, hdr⟩ : ∃ d r, w.reverse = d :: r := by
        cases hr : w.reverse with
        | nil => exact absurd (by simpa using hr) hw.1
        | cons d r => exact ⟨d, r, rfl⟩
      refine ⟨d, r, by simpa [joinWords] using hdr, ?_⟩
      have : d ∈ w := by
        have : d ∈ w.reverse := by simp [hdr]
        simpa using this
      exact hw.2 d this
    | cons x ws' =>
      obtain ⟨d, r, hdr, hd⟩ := ih (fun u hu => h u (by simp [hu])) (by simp)
      refine ⟨d, r ++ [' '] ++ w.reverse, ?_, hd⟩
      rw [joinWords_cons_cons, List.reverse_append, List.reverse_cons, hdr]
      simp

theorem pyStrip_joinWords (ws : List (List Char)) (h : ∀ w ∈ ws, goodWord w) :
    pyStrip (joinWords ws) = joinWords ws := by
  cases hws : ws with
  | nil => simp [joinWords, pyStrip]
  | cons w ws' =>
    subst hws
    obtain ⟨d, r, hdr, hd⟩ := joinWords_head _ h (by simp)
    obtain ⟨e, s, hes, he⟩ := joinWords_reverse_head _ h (by simp)
    unfold pyStrip
    rw [hdr, List.dropWhile_cons, if_neg (by simp [hd]), ← hdr, hes,
      List.dropWhile_cons, if_neg (by simp [he]), ← hes]
    simp

theorem pyStrip_joinWords_space (ws : List (List Char)) (h : ∀ w ∈ ws, goodWord w)
    (hne : ws ≠ []) : pyStrip (joinWords ws ++ [' ']) = joinWords ws := by
  obtain ⟨d, r, hdr, hd⟩ := joinWords_head _ h hne
  obtain ⟨e, s, hes, he⟩ := joinWords_reverse_head _ h hne
  unfold pyStrip
  rw [hdr, List.cons_append, List.dropWhile_cons, if_neg (by simp [hd]),
    ← List.cons_append, ← hdr, List.reverse_append, hes]
  show (((' ' :: (e :: s)).dropWhile isSpace).reverse : List Char) = _
  rw [List.dropWhile_cons, if_pos (by simp [isSpace]), List.dropWhile_cons,
    if_neg (by simp [he]), ← hes]
  simp

theorem take_at_space : ∀ (ws : List (List Char)), (∀ w ∈ ws, goodWord w) →
    ∀ (p : Nat) (c : Char), (joinWords ws)[p]? = some c → isSpace c = true →
    ∃ j, 1 ≤ j ∧ j < ws.length ∧
      (joinWords ws).take (p + 1) = joinWords (ws.take j) ++ [' '] := by
  intro ws
  induction ws with
  | nil => intro _ p c hc _; simp [joinWords] at hc
  | cons w ws ih =>
    intro h p c hc hsp
    have hw := h w (by simp)
    cases ws with
    | nil =>
      exfalso
      have hcw : c ∈ w := by
        have : c ∈ joinWords [w] := List.getElem?_mem hc
        simpa [joinWords] using this
      rw [hw.2 c hcw] at hsp
      exact Bool.false_ne_true hsp
    | cons x ws' =>
      rw [joinWords_cons_cons] at hc ⊢
      rcases Nat.lt_trichotomy p w.length with hp | hp | hp
      · exfalso
        rw [List.getElem?_append_left hp] at hc
        have : c ∈ w := List.getElem?_mem hc
        rw [hw.2 c this] at hsp
        exact Bool.false_ne_true hsp
      · refine ⟨1, le_refl 1, by simp, ?_⟩
        subst hp
        rw [List.take_append_eq_append_take, List.take_of_length_le (by omega),
          Nat.add_sub_cancel_left, List.take_succ_cons, List.take_zero]
        simp [joinWords]
      · obtain ⟨q, hq⟩ : ∃ q, p = w.length + 1 + q := ⟨p - (w.length + 1), by omega⟩
        subst hq
        have hcq : (joinWords (x :: ws'))[q]? = some c := by
          rw [List.getElem?_append_right (by omega)] at hc
          have harith : w.length + 1 + q - w.length = q + 1 := by omega
          rw [harith, List.getElem?_cons_succ] at hc
          exact hc
        obtain ⟨j, hj1, hj2, hj3⟩ := ih (fun u hu => h u (by simp [hu])) q c hcq hsp
        refine ⟨j + 1, by omega, ?_, ?_⟩
        · simp only [List.length_cons] at hj2 ⊢
          omega
        · rw [List.take_append_eq_append_take, List.take_of_length_le (by omega)]
          have harith : w.length + 1 + q + 1 - w.length = q + 2 := by omega
          rw [harith, List.take_succ_cons, hj3, List.take_succ_cons]
          have hne : (x :: ws').take j ≠ [] := by
            cases j with
            | zero => omega
            | succ j' => simp
          cases htj : (x :: ws').take j with
          | nil => exact absurd htj hne
          | cons u us => simp [joinWords_cons_cons, htj]

theorem foldl_if_some : ∀ (l : List Nat) (f : Nat → Bool) (g : Nat → Nat)
    (init : Option Nat) (v : Nat),
    l.foldl (fun acc p => if f p then some (g p) else acc) init = some v →
    (∃ p ∈ l, f p = true ∧ v = g p) ∨ init = some v := by
  intro l f g
  induction l with
  | nil => intro init v h; right; exact h
  | cons a l ih =>
    intro init v h
    simp only [List.foldl_cons] at h
    rcases ih _ v h with ⟨p, hp, hf, hv⟩ | hinit
    · exact Or.inl ⟨p, by simp [hp], hf, hv⟩
    · by_cases hfa : f a
      · rw [if_pos hfa] at hinit
        exact Or.inl ⟨a, by simp, hfa, (Option.some.inj hinit).symm⟩
      · rw [if_neg hfa] at hinit
        exact Or.inr hinit

theorem lastBoundaryIdx_some (l : Txt) (idx : Nat)
    (h : lastBoundaryIdx l = some idx) :
    ∃ p, matchBoundaryAt l p = true ∧ idx = p + 2 := by
  unfold lastBoundaryIdx at h
  rcases foldl_if_some _ _ _ _ _ h with ⟨p, -, hf, hv⟩ | hbad
  · exact ⟨p, hf, hv⟩
  · cases hbad

theorem matchBoundaryAt_spec (l : Txt) (p : Nat)
    (h : matchBoundaryAt l p = true) :
    ∃ a b, l[p]? = some a ∧ l[p + 1]? = some b ∧
      isSentencePunct a = true ∧ isSpace b = true := by
  unfold matchBoundaryAt at h
  cases hd : l.drop p with
  | nil => rw [hd] at h; cases h
  | cons a t =>
    cases t with
    | nil => rw [hd] at h; cases h
    | cons b t' =>
      rw [hd] at h
      simp only [Bool.and_eq_true] at h
      refine ⟨a, b, ?_, ?_, h.1, h.2⟩
      · have h0 := List.getElem?_drop l p 0
        rw [hd] at h0
        simpa using h0.symm
      · have h1 := List.getElem?_drop l p 1
        rw [hd] at h1
        simpa using h1.symm

theorem truncate_shape (t : Txt) (m : Nat) (h : m < countWords t) :
    ∃ j, j ≤ m ∧
      truncate_to_words_sentence_aware t m = joinWords ((wsplit t).take j) := by
  have hred : truncate_to_words_sentence_aware t m =
      match lastBoundaryIdx (joinWords ((wsplit t).take m)) with
      | some idx => pyStrip ((joinWords ((wsplit t).take m)).take idx)
      | none => pyStrip (joinWords ((wsplit t).take m)) := by
    unfold truncate_to_words_sentence_aware
    rw [if_neg (by unfold countWords at h; omega)]
  have hgood : ∀ w ∈ (wsplit t).take m, goodWord w := fun w hw =>
    wsplit_good t w (List.take_subset m (wsplit t) hw)
  have hlen : ((wsplit t).take m).length = m :=
    List.length_take_of_le (by unfold countWords at h; omega)
  cases hb : lastBoundaryIdx (joinWords ((wsplit t).take m)) with
  | none =>
    rw [hb] at hred
    exact ⟨m, le_refl m, by rw [hred, pyStrip_joinWords _ hgood]⟩
  | some idx =>
    rw [hb] at hred
    obtain ⟨p, hm, hidx⟩ := lastBoundaryIdx_some _ _ hb
    obtain ⟨a, b, -, hb1, -, hbsp⟩ := matchBoundaryAt_spec _ _ hm
    obtain ⟨j, hj1, hj2, hj3⟩ := take_at_space _ hgood (p + 1) b hb1 hbsp
    have hjs : ((wsplit t).take m).take j = (wsplit t).take j := by
      rw [List.take_take, min_eq_left (by omega)]
    refine ⟨j, by omega, ?_⟩
    rw [hred, hidx]
    show pyStrip ((joinWords ((wsplit t).take m)).take (p + 1 + 1)) = _
    rw [hj3, ← hjs]
    refine pyStrip_joinWords_space _
      (fun w hw => hgood w (List.take_subset j _ hw)) ?_
    cases j with
    | zero => omega
    | succ j' =>
      cases hwsnil : (wsplit t).take m with
      | nil => rw [hwsnil] at hj2; simp at hj2
      | cons u us => simp [hwsnil]

theorem truncate_unchanged (t : Txt) (m : Nat) (h : countWords t ≤ m) :
    truncate_to_words_sentence_aware t m = t := by
  unfold truncate_to_words_sentence_aware
  rw [if_pos (by unfold countWords at h; omega)]

theorem wsplit_truncate (t : Txt) (m : Nat) (h : m < countWords t) :
    ∃ j, j ≤ m ∧
      wsplit (truncate_to_words_sentence_aware t m) = (wsplit t).take j := by
  obtain ⟨j, hj, heq⟩ := truncate_shape t m h
  refine ⟨j, hj, ?_⟩
  rw [heq, wsplit_joinWords]
  intro w hw
  exact wsplit_good t w (List.take_subset j (wsplit t) hw)

theorem countWords_truncate (t : Txt) (m : Nat) :
    countWords (truncate_to_words_sentence_aware t m) ≤ m := by
  rcases le_or_lt (countWords t) m with h | h
  · rw [truncate_unchanged t m h]; exact h
  · obtain ⟨j, hj, heq⟩ := wsplit_truncate t m h
    unfold countWords
    rw [heq]
    calc ((wsplit t).take j).length ≤ j := List.length_take_le j _
    _ ≤ m := hj

theorem wsplitAux_all_space : ∀ (sp : List Char), (∀ c ∈ sp, isSpace c = true) →
    ∀ acc, wsplitAux sp acc = wsplitAux [] acc := by
  intro sp
  induction sp with
  | nil => intro _ _; rfl
  | cons c cs ih =>
    intro h acc
    have hc : isSpace c = true := h c (by simp)
    have ihcs := ih (fun d hd => h d (by simp [hd]))
    simp only [wsplitAux, hc, if_true]
    by_cases hacc : acc.isEmpty
    · rw [if_pos hacc, ihcs []]
      simp [wsplitAux, hacc]
    · rw [if_neg hacc, ihcs []]
      simp [wsplitAux, hacc]

theorem wsplitAux_append_space : ∀ (l sp : List Char),
    (∀ c ∈ sp, isSpace c = true) →
    ∀ acc, wsplitAux (l ++ sp) acc = wsplitAux l acc := by
  intro l
  induction l with
  | nil => intro sp h acc; exact wsplitAux_all_space sp h acc
  | cons c cs ih =>
    intro sp h acc
    simp only [List.cons_append, wsplitAux, List.append_eq]
    by_cases hc : isSpace c
    · rw [if_pos hc, if_pos hc]
      by_cases hacc : acc.isEmpty
      · rw [if_pos hacc, if_pos hacc, ih sp h []]
      · rw [if_neg hacc, if_neg hacc, ih sp h []]
    · rw [if_neg hc, if_neg hc, ih sp h (c :: acc)]

theorem pyRstrip_decomp (t : Txt) :
    t = pyRstrip t ++ (t.reverse.takeWhile isSpace).reverse ∧
    (∀ c ∈ (t.reverse.takeWhile isSpace).reverse, isSpace c = true) := by
  constructor
  · unfold pyRstrip
    rw [← List.reverse_append, List.takeWhile_append_dropWhile, List.reverse_reverse]
  · intro c hc
    exact List.mem_takeWhile_imp (List.mem_reverse.mp hc)

theorem wsplit_pyRstrip (t : Txt) : wsplit (pyRstrip t) = wsplit t := by
  obtain ⟨hdec, hsp⟩ := pyRstrip_decomp t
  conv_rhs => rw [hdec]
  unfold wsplit
  rw [wsplitAux_append_space _ _ hsp]

theorem countWords_pyRstrip (t : Txt) : countWords (pyRstrip t) = countWords t := by
  unfold countWords
  rw [wsplit_pyRstrip]

theorem pyRstrip_getLast (t : Txt) (c : Char)
    (h : (pyRstrip t).getLast? = some c) : isSpace c = false := by
  unfold pyRstrip at h
  rw [List.getLast?_reverse] at h
  exact head?_dropWhile _ c h

theorem wsplitAux_snoc_len : ∀ (l : List Char), l ≠ [] →
    (∀ d, l.getLast? = some d → isSpace d = false) →
    ∀ (acc : List Char) (c : Char), isSpace c = false →
    (wsplitAux (l ++ [c]) acc).length = (wsplitAux l acc).length := by
  intro l
  induction l with
  | nil => intro h; exact absurd rfl h
  | cons d l' ih =>
    intro _ hlast acc c hc
    cases l' with
    | nil =>
      have hd : isSpace d = false := hlast d (by simp)
      simp [wsplitAux, hd, hc]
    | cons x xs =>
      have hlast' : ∀ e, (x :: xs).getLast? = some e → isSpace e = false := by
        intro e he
        exact hlast e (by rw [List.getLast?_cons_cons]; exact he)
      have ihl := ih (by simp) hlast'
      have hstep : ∀ (u : List Char) (a : List Char), wsplitAux (d :: u) a =
          if isSpace d then
            (if a.isEmpty then wsplitAux u [] else a.reverse :: wsplitAux u [])
          else wsplitAux u (d :: a) := fun _ _ => rfl
      rw [List.cons_append, hstep (x :: xs ++ [c]) acc, hstep (x :: xs) acc]
      by_cases hd : isSpace d
      · rw [if_pos hd, if_pos hd]
        by_cases hacc : acc.isEmpty
        · rw [if_pos hacc, if_pos hacc]
          exact ihl [] c hc
        · rw [if_neg hacc, if_neg hacc]
          simp only [List.length_cons]
          rw [ihl [] c hc]
      · rw [if_neg hd, if_neg hd]
        exact ihl (d :: acc) c hc

theorem countWords_snoc_nonspace (l : Txt) (c : Char) (hne : l ≠ [])
    (hlast : ∀ d, l.getLast? = some d → isSpace d = false)
    (hc : isSpace c = false) : countWords (l ++ [c]) = countWords l :=
  wsplitAux_snoc_len l hne hlast [] c hc

theorem countWords_ensure (t : Txt) :
    countWords (ensure_sentence_boundary t) ≤ max 1 (countWords t) := by
  unfold ensure_sentence_boundary
  by_cases hterm : endsWithTerminator (pyRstrip t)
  · rw [if_pos hterm, countWords_pyRstrip]
    exact le_max_right 1 _
  · rw [if_neg hterm]
    cases hnil : pyRstrip t with
    | nil =>
      simp only [List.nil_append]
      have : countWords ['.'] = 1 := by decide
      rw [this]
      exact le_max_left 1 _
    | cons d r =>
      rw [← hnil,
        countWords_snoc_nonspace (pyRstrip t) '.' (by simp [hnil])
          (pyRstrip_getLast t) (by decide),
        countWords_pyRstrip]
      exact le_max_right 1 _

theorem endsWithTerminator_ensure (t : Txt) :
    endsWithTerminator (ensure_sentence_boundary t) = true := by
  unfold ensure_sentence_boundary
  by_cases hterm : endsWithTerminator (pyRstrip t)
  · rw [if_pos hterm]; exact hterm
  · rw [if_neg hterm]
    unfold endsWithTerminator
    rw [List.getLast?_concat]
    decide

/-! ## Lemmas: the shape of a `generate_script` run -/

theorem generate_script_shape (oracle : Nat → Except Txt GenResponse) (topic : Txt)
    (length_minutes : Nat) (additional_context : Option Txt)
    (requested_word_cap : Option Int) :
    (∃ e k, generate_script oracle topic length_minutes additional_context
        requested_word_cap = (mkFailure e, emptyTrace k)) ∨
    (∃ k st, st ≠ [] ∧
      generate_script oracle topic length_minutes additional_context
        requested_word_cap =
        finalize_run
          (continuation_phase oracle k topic additional_context st
            (resolve_hard_word_cap length_minutes requested_word_cap))
          k st (resolve_hard_word_cap length_minutes requested_word_cap)) := by
  unfold generate_script
  cases acquire_response oracle with
  | error ek => exact Or.inl ⟨ek.1, ek.2, rfl⟩
  | ok rk =>
    simp only []
    split
    · exact Or.inl ⟨_, _, rfl⟩
    · split
      · exact Or.inl ⟨_, _, rfl⟩
      · next st _ =>
        split
        · exact Or.inl ⟨_, _, rfl⟩
        · next hne => exact Or.inr ⟨rk.2, st, hne, rfl⟩

theorem resolve_hard_word_cap_pos (m : Nat) (r : Option Int) :
    1 ≤ resolve_hard_word_cap m r := by
  cases r with
  | none =>
    show 1 ≤ ((2000 : Int) ⊓ ((150 : Int) ⊔ ((m : Int) * 150))).toNat
    omega
  | some v =>
    show 1 ≤ (if v ≠ 0 ∧ 0 < v then ((200 : Int) ⊔ ((5000 : Int) ⊓ v)).toNat
              else ((2000 : Int) ⊓ ((150 : Int) ⊔ ((m : Int) * 150))).toNat)
    split <;> omega

theorem finalize_run_script (co : ContOutcome) (k : Nat) (st : Txt) (cap : Nat) :
    (finalize_run co k st cap).1.script =
      ensure_sentence_boundary (truncate_to_words_sentence_aware
        (reformat_sections (clean_response_text co.accumulated)) cap) := by
  simp only [finalize_run, post_process_script]

theorem finalize_run_pre_trunc (co : ContOutcome) (k : Nat) (st : Txt) (cap : Nat) :
    (finalize_run co k st cap).2.pre_trunc =
      reformat_sections (clean_response_text co.accumulated) := by
  simp only [finalize_run]

/-! ## Claim theorems -/

/-- **C2** (corrected).  The resolved hard word cap: a *positive*
override is clamped into [200, 5000]; a missing override — and likewise
a zero or negative one, which is where the claim as stated fails — falls
back to `min(2000, max(150, length_minutes * 150))`.  In particular
5 minutes resolves to 750 and 20 minutes to 2000. -/
theorem c2_word_cap_resolution (length_minutes : Nat) (r : Int) :
    resolve_hard_word_cap length_minutes (some r) =
      (if 0 < r then (max 200 (min 5000 r)).toNat
       else (min 2000 (max 150 ((length_minutes : Int) * 150))).toNat) ∧
    resolve_hard_word_cap length_minutes none =
      (min 2000 (max 150 ((length_minutes : Int) * 150))).toNat ∧
    resolve_hard_word_cap 5 none = 750 ∧
    resolve_hard_word_cap 20 none = 2000 := by
  refine ⟨?_, rfl, by decide, by decide⟩
  show (if r ≠ 0 ∧ 0 < r then ((200 : Int) ⊔ ((5000 : Int) ⊓ r)).toNat
        else ((2000 : Int) ⊓ ((150 : Int) ⊔ ((length_minutes : Int) * 150))).toNat) = _
  by_cases h : 0 < r
  · rw [if_pos ⟨by omega, h⟩, if_pos h]
  · rw [if_neg (by omega), if_neg h]

/-- **C2** (counterexample to the claim as stated).  A caller-supplied
override of `0` is an override per the claim, which would clamp it to
200; the code's truthiness test sends it to the duration-derived default
instead (750 for 5 minutes). -/
theorem c2_counterexample :
    resolve_hard_word_cap 5 (some 0) = 750 ∧
    spec_resolved_word_cap 5 (some 0) = 200 ∧
    resolve_hard_word_cap 5 (some 0) ≠ spec_resolved_word_cap 5 (some 0) := by
  decide

/-- **C5** (confirmed).  Every success-result script ends in one of the
accepted sentence terminators `. ! ? ।`; and `_ensure_sentence_boundary`
appends exactly one period when the right-trimmed text does not already
end in one of them, and appends nothing otherwise. -/
theorem c5_sentence_terminator (oracle : Nat → Except Txt GenResponse)
    (topic : Txt) (length_minutes : Nat) (additional_context : Option Txt)
    (requested_word_cap : Option Int) (t : Txt) :
    (endsWithTerminator (ensure_sentence_boundary t) = true ∧
      ensure_sentence_boundary t =
        (if endsWithTerminator (pyRstrip t) then pyRstrip t
         else pyRstrip t ++ ['.'])) ∧
    ((generate_script oracle topic length_minutes additional_context
        requested_word_cap).1.success = true →
      endsWithTerminator (generate_script oracle topic length_minutes
        additional_context requested_word_cap).1.script = true) := by
  refine ⟨⟨endsWithTerminator_ensure t, rfl⟩, ?_⟩
  intro hs
  rcases generate_script_shape oracle topic length_minutes additional_context
      requested_word_cap with ⟨e, k, heq⟩ | ⟨k, st, -, heq⟩
  · rw [heq] at hs
    simp [mkFailure] at hs
  · rw [heq, finalize_run_script]
    exact endsWithTerminator_ensure _

/-- Witness for C5 at a concrete successful run. -/
theorem c5_sentence_terminator_witness :
    (generate_script oracleSmallOk topicPlain 1 none none).1.success = true ∧
    endsWithTerminator
      (generate_script oracleSmallOk topicPlain 1 none none).1.script = true :=
  ⟨rfl, (c5_sentence_terminator oracleSmallOk topicPlain 1 none none []).2 rfl⟩

/-- **C10** (confirmed).  `_truncate_to_words_sentence_aware` returns its
input completely unchanged when the word count is within the limit;
otherwise the output is the single-space join of a prefix of the input's
words (hence contains no newline — the line structure is lost exactly
when truncation occurs) and stays within the limit. -/
theorem c10_truncate_join_structure (t : Txt) (m : Nat) :
    truncate_to_words_sentence_aware t m =
      (if countWords t ≤ m then t
       else joinWords ((wsplit t).take
         (countWords (truncate_to_words_sentence_aware t m)))) ∧
    (countWords t ≤ m ∨
      ('\n' ∉ truncate_to_words_sentence_aware t m ∧
        countWords (truncate_to_words_sentence_aware t m) ≤ m)) := by
  by_cases h : countWords t ≤ m
  · rw [if_pos h]
    exact ⟨truncate_unchanged t m h, Or.inl h⟩
  · push_neg at h
    rw [if_neg (by omega)]
    obtain ⟨j, hj, heq⟩ := truncate_shape t m h
    have hwsp : wsplit (truncate_to_words_sentence_aware t m) = (wsplit t).take j := by
      rw [heq, wsplit_joinWords]
      intro w hw
      exact wsplit_good t w (List.take_subset j (wsplit t) hw)
    have hcount : countWords (truncate_to_words_sentence_aware t m) =
        ((wsplit t).take j).length := congrArg List.length hwsp
    have hval : countWords (truncate_to_words_sentence_aware t m) = j := by
      rw [hcount, List.length_take]
      exact min_eq_left (le_of_lt (lt_of_le_of_lt hj h))
    refine ⟨?_, Or.inr ⟨?_, countWords_truncate t m⟩⟩
    · rw [hval]
      exact heq
    · intro hmem
      rw [heq] at hmem
      rcases mem_joinWords _ _ hmem with ⟨w, hw', hcm⟩ | hsp
      · have := (wsplit_good t w (List.take_subset j (wsplit t) hw')).2 '\n' hcm
        simp [isSpace] at this
      · cases hsp

/-- Witness for C10 at a concrete truncating input. -/
theorem c10_truncate_join_structure_witness :
    truncate_to_words_sentence_aware "one\ntwo\nthree four".toList 2 =
      (if countWords "one\ntwo\nthree four".toList ≤ 2 then "one\ntwo\nthree four".toList
       else joinWords ((wsplit "one\ntwo\nthree four".toList).take
         (countWords (truncate_to_words_sentence_aware "one\ntwo\nthree four".toList 2)))) ∧
    (countWords "one\ntwo\nthree four".toList ≤ 2 ∨
      ('\n' ∉ truncate_to_words_sentence_aware "one\ntwo\nthree four".toList 2 ∧
        countWords (truncate_to_words_sentence_aware "one\ntwo\nthree four".toList 2) ≤ 2)) :=
  c10_truncate_join_structure "one\ntwo\nthree four".toList 2

/-- **C1** (confirmed).  On every success result the final script's
whitespace-delimited word count is at most the resolved cap, and when
the pre-truncation text exceeds the cap, the truncated text is the join
of a whole-word prefix of the pre-truncation text's words — the cut
never splits a word (the period possibly appended afterwards by
`_ensure_sentence_boundary` attaches to the last word and is not part of
the truncation). -/
theorem c1_cap_and_whole_words (oracle : Nat → Except Txt GenResponse)
    (topic : Txt) (length_minutes : Nat) (additional_context : Option Txt)
    (requested_word_cap : Option Int)
    (hs : (generate_script oracle topic length_minutes additional_context
      requested_word_cap).1.success = true) :
    countWords (generate_script oracle topic length_minutes additional_context
        requested_word_cap).1.script ≤
      resolve_hard_word_cap length_minutes requested_word_cap ∧
    (resolve_hard_word_cap length_minutes requested_word_cap <
        countWords (generate_script oracle topic length_minutes
          additional_context requested_word_cap).2.pre_trunc →
      ∃ j, j ≤ resolve_hard_word_cap length_minutes requested_word_cap ∧
        truncate_to_words_sentence_aware
            (generate_script oracle topic length_minutes additional_context
              requested_word_cap).2.pre_trunc
            (resolve_hard_word_cap length_minutes requested_word_cap) =
          joinWords ((wsplit (generate_script oracle topic length_minutes
            additional_context requested_word_cap).2.pre_trunc).take j)) := by
  rcases generate_script_shape oracle topic length_minutes additional_context
      requested_word_cap with ⟨e, k, heq⟩ | ⟨k, st, -, heq⟩
  · rw [heq] at hs
    simp [mkFailure] at hs
  · constructor
    · rw [heq, finalize_run_script]
      have h1 := countWords_ensure (truncate_to_words_sentence_aware
        (reformat_sections (clean_response_text
          (continuation_phase oracle k topic additional_context st
            (resolve_hard_word_cap length_minutes requested_word_cap)).accumulated))
        (resolve_hard_word_cap length_minutes requested_word_cap))
      have h2 := countWords_truncate
        (reformat_sections (clean_response_text
          (continuation_phase oracle k topic additional_context st
            (resolve_hard_word_cap length_minutes requested_word_cap)).accumulated))
        (resolve_hard_word_cap length_minutes requested_word_cap)
      have h3 := resolve_hard_word_cap_pos length_minutes requested_word_cap
      omega
    · intro hgt
      exact truncate_shape _ _ hgt

/-- Witness for C1 at a concrete successful run. -/
theorem c1_cap_and_whole_words_witness :
    (generate_script oracleSmallOk topicPlain 1 none none).1.success = true ∧
    (countWords (generate_script oracleSmallOk topicPlain 1 none none).1.script ≤
        resolve_hard_word_cap 1 none ∧
      (resolve_hard_word_cap 1 none <
          countWords (generate_script oracleSmallOk topicPlain 1 none none).2.pre_trunc →
        ∃ j, j ≤ resolve_hard_word_cap 1 none ∧
          truncate_to_words_sentence_aware
              (generate_script oracleSmallOk topicPlain 1 none none).2.pre_trunc
              (resolve_hard_word_cap 1 none) =
            joinWords ((wsplit (generate_script oracleSmallOk topicPlain 1
              none none).2.pre_trunc).take j))) :=
  ⟨rfl, c1_cap_and_whole_words oracleSmallOk topicPlain 1 none none rfl⟩

theorem reaches_safety_check_acquire (oracle : Nat → Except Txt GenResponse)
    (r : GenResponse) (h : reaches_safety_check oracle r) :
    ∃ k, acquire_response oracle = .ok (r, k) := by
  rcases h with ⟨h0, hne⟩ | ⟨r0, h0, hc, h1, hne, htx⟩
  · refine ⟨1, ?_⟩
    unfold acquire_response
    rw [h0]
    simp only [List.isEmpty_eq_true]
    rw [if_neg hne]
  · refine ⟨2, ?_⟩
    unfold acquire_response
    rw [h0]
    simp only [List.isEmpty_eq_true]
    rw [if_pos hc, h1]
    simp only [List.isEmpty_eq_true]
    rw [if_neg (by simp [hne, htx])]

/-- **C6** (confirmed).  Whenever the response examined by the
safety-rating check has a first candidate carrying a rating with
probability `MEDIUM` or `HIGH` on any category, `generate_script`
returns `success = false` with the error message that lists the blocked
`category: probability` pairs — such a response is never returned as a
success. -/
theorem c6_safety_block (oracle : Nat → Except Txt GenResponse)
    (topic : Txt) (length_minutes : Nat) (additional_context : Option Txt)
    (requested_word_cap : Option Int) (r : GenResponse)
    (cand : ResponseCandidate) (rest : List ResponseCandidate)
    (hreach : reaches_safety_check oracle r)
    (hcand : r.candidates = cand :: rest)
    (hflag : ∃ rating ∈ cand.safety_ratings,
      rating.probability = some "MEDIUM".toList ∨
      rating.probability = some "HIGH".toList) :
    (generate_script oracle topic length_minutes additional_context
      requested_word_cap).1.success = false ∧
    (generate_script oracle topic length_minutes additional_context
        requested_word_cap).1.error =
      some (blocked_message (blocked_categories cand)) := by
  obtain ⟨k, hacq⟩ := reaches_safety_check_acquire oracle r hreach
  have hne : blocked_categories cand ≠ [] := by
    obtain ⟨rating, hmem, hprob⟩ := hflag
    refine List.ne_nil_of_mem (a := rating.category ++ ':' :: ' ' ::
      (rating.probability.getD [])) ?_
    unfold blocked_categories
    rcases hprob with hp | hp <;>
      exact List.mem_filterMap.mpr ⟨rating, hmem, by rw [hp]; simp⟩
  unfold generate_script
  rw [hacq]
  simp only [hcand]
  rw [if_pos hne]
  exact ⟨rfl, rfl⟩

/-- Witness for C6: the flagged response yields the failure with its
category named. -/
theorem c6_safety_block_witness :
    reaches_safety_check oracleFlagged flaggedResponse ∧
    flaggedResponse.candidates = flaggedCandidate :: [] ∧
    (∃ rating ∈ flaggedCandidate.safety_ratings,
      rating.probability = some "MEDIUM".toList ∨
      rating.probability = some "HIGH".toList) ∧
    (generate_script oracleFlagged topicPlain 5 none none).1.success = false ∧
    (generate_script oracleFlagged topicPlain 5 none none).1.error =
      some (blocked_message (blocked_categories flaggedCandidate)) := by
  have h1 : reaches_safety_check oracleFlagged flaggedResponse :=
    Or.inl ⟨rfl, by decide⟩
  have h2 : flaggedResponse.candidates = flaggedCandidate :: [] := rfl
  have h3 : ∃ rating ∈ flaggedCandidate.safety_ratings,
      rating.probability = some "MEDIUM".toList ∨
      rating.probability = some "HIGH".toList :=
    ⟨flaggedRating, by decide, Or.inl rfl⟩
  have hmain := c6_safety_block oracleFlagged topicPlain 5 none none
    flaggedResponse flaggedCandidate [] h1 h2 h3
  exact ⟨h1, h2, h3, hmain.1, hmain.2⟩

/-- **C7** (corrected).  `generate_script` is total over every oracle
behaviour (it always returns a result), and an exception raised by the
initial generation call, or by the safety-fallback call, is caught by
the outer handler and surfaced as `success = false` with the exception's
message.  The claim as stated fails for exceptions raised *during a
continuation call*: those are swallowed inside
`_attempt_continuation`'s own `try/except` and the call can still
return `success = true` (see the counterexample). -/
theorem c7_exception_to_failure (oracle : Nat → Except Txt GenResponse)
    (topic : Txt) (length_minutes : Nat) (additional_context : Option Txt)
    (requested_word_cap : Option Int) (e : Txt)
    (h : oracle 0 = .error e ∨
      (∃ r0, oracle 0 = .ok r0 ∧ r0.candidates = [] ∧ oracle 1 = .error e)) :
    (generate_script oracle topic length_minutes additional_context
      requested_word_cap).1.success = false ∧
    (generate_script oracle topic length_minutes additional_context
      requested_word_cap).1.error = some e := by
  rcases h with h0 | ⟨r0, h0, hc, h1⟩
  · have hacq : acquire_response oracle = .error (e, 1) := by
      unfold acquire_response
      rw [h0]
    unfold generate_script
    rw [hacq]
    exact ⟨rfl, rfl⟩
  · have hacq : acquire_response oracle = .error (e, 2) := by
      unfold acquire_response
      rw [h0]
      simp only [hc, List.isEmpty_nil, if_true]
      rw [h1]
    unfold generate_script
    rw [hacq]
    exact ⟨rfl, rfl⟩

/-- Witness for C7 (amended): a raising first call yields the failure
with its message. -/
theorem c7_exception_to_failure_witness :
    (oracleFailFirst 0 = .error "rate limit".toList ∨
      (∃ r0, oracleFailFirst 0 = .ok r0 ∧ r0.candidates = [] ∧
        oracleFailFirst 1 = .error "rate limit".toList)) ∧
    (generate_script oracleFailFirst topicPlain 5 none none).1.success = false ∧
    (generate_script oracleFailFirst topicPlain 5 none none).1.error =
      some "rate limit".toList := by
  have h : oracleFailFirst 0 = .error "rate limit".toList ∨
      (∃ r0, oracleFailFirst 0 = .ok r0 ∧ r0.candidates = [] ∧
        oracleFailFirst 1 = .error "rate limit".toList) := Or.inl rfl
  have hmain := c7_exception_to_failure oracleFailFirst topicPlain 5 none none
    "rate limit".toList h
  exact ⟨h, hmain.1, hmain.2⟩

/-- **C7** (counterexample to the claim as stated).  The second oracle
call — the generic continuation — raises (`oracleRaising 1` is an
error), the run consumed two calls, and yet the result has
`success = true`: an exception raised inside the generation flow does
not always produce a failure result. -/
theorem c7_counterexample :
    oracleRaising 1 = .error "boom".toList ∧
    (generate_script oracleRaising topicPlain 5 none none).2.calls = 2 ∧
    (generate_script oracleRaising topicPlain 5 none none).1.success = true :=
  ⟨rfl, rfl, rfl⟩

theorem finalize_run_trace (co : ContOutcome) (k : Nat) (st : Txt) (cap : Nat) :
    (finalize_run co k st cap).2.entered_continuation = co.entered ∧
    (finalize_run co k st cap).2.extracted_wc = countWords st ∧
    (finalize_run co k st cap).2.guided_issued = co.guided ∧
    (finalize_run co k st cap).2.guidance = co.guidance ∧
    (finalize_run co k st cap).2.after_generic = co.after_generic ∧
    (finalize_run co k st cap).2.continuation_calls = co.k - k := by
  refine ⟨?_, ?_, ?_, ?_, ?_, ?_⟩ <;> simp only [finalize_run]

theorem continuation_phase_entered_of_none (oracle : Nat → Except Txt GenResponse)
    (k : Nat) (topic : Txt) (ctx : Option Txt) (st : Txt) (cap : Nat)
    (hnone : extract_expected_item_count topic ctx = none) :
    (continuation_phase oracle k topic ctx st cap).entered =
      decide (countWords st < cap * 17 / 20) := by
  by_cases hn : countWords st < cap * 17 / 20
  · simp [continuation_phase, hnone, hn]
  · simp [continuation_phase, hnone, hn]

/-- **C3** (corrected).  For a call whose topic/context carry no
detectable enumerated-item count, a run that reaches the continuation
stage (equivalently, one that returns success) enters the continuation
block iff the first extracted text's word count is strictly below
`int(hard_word_cap * 0.85)` — the *floor* of `0.85 × cap`, not
`0.85 × cap` itself, which is where the claim as stated fails (see the
counterexample at word count 637 against cap 750). -/
theorem c3_continuation_trigger (oracle : Nat → Except Txt GenResponse)
    (topic : Txt) (length_minutes : Nat) (additional_context : Option Txt)
    (requested_word_cap : Option Int)
    (hnone : extract_expected_item_count topic additional_context = none)
    (hs : (generate_script oracle topic length_minutes additional_context
      requested_word_cap).1.success = true) :
    (generate_script oracle topic length_minutes additional_context
        requested_word_cap).2.entered_continuation = true ↔
      (generate_script oracle topic length_minutes additional_context
          requested_word_cap).2.extracted_wc <
        resolve_hard_word_cap length_minutes requested_word_cap * 17 / 20 := by
  rcases generate_script_shape oracle topic length_minutes additional_context
      requested_word_cap with ⟨e, k, heq⟩ | ⟨k, st, -, heq⟩
  · rw [heq] at hs
    simp [mkFailure] at hs
  · rw [heq]
    obtain ⟨h1, h2, -, -, -, -⟩ := finalize_run_trace
      (continuation_phase oracle k topic additional_context st
        (resolve_hard_word_cap length_minutes requested_word_cap))
      k st (resolve_hard_word_cap length_minutes requested_word_cap)
    rw [h1, h2, continuation_phase_entered_of_none _ _ _ _ _ _ hnone]
    simp

/-- Witness for C3 (amended) at a concrete successful run. -/
theorem c3_continuation_trigger_witness :
    extract_expected_item_count topicPlain none = none ∧
    (generate_script oracleSmallOk topicPlain 1 none none).1.success = true ∧
    ((generate_script oracleSmallOk topicPlain 1 none none).2.entered_continuation
        = true ↔
      (generate_script oracleSmallOk topicPlain 1 none none).2.extracted_wc <
        resolve_hard_word_cap 1 none * 17 / 20) := by
  have h1 : extract_expected_item_count topicPlain none = none := by decide
  exact ⟨h1, rfl, c3_continuation_trigger oracleSmallOk topicPlain 1 none none h1 rfl⟩

set_option maxRecDepth 100000

set_option maxHeartbeats 2000000

/-- **C3** (counterexample to the claim as stated).  With an override of
201 the cap resolves to 201, so `0.85 × cap = 170.85`; a first extracted
text of exactly 170 words is strictly below that bound, yet the code
compares against `int(201 * 0.85) = 170` and does **not** enter the
continuation step. -/
theorem c3_counterexample :
    extract_expected_item_count topicPlain none = none ∧
    (generate_script oracleShort170 topicPlain 5 none (some 201)).1.success
      = true ∧
    (generate_script oracleShort170 topicPlain 5 none
      (some 201)).2.extracted_wc = 170 ∧
    ((170 : ℚ) <
      (85 / 100 : ℚ) * ((resolve_hard_word_cap 5 (some 201) : Nat) : ℚ)) ∧
    (generate_script oracleShort170 topicPlain 5 none
      (some 201)).2.entered_continuation = false := by
  refine ⟨by decide, rfl, rfl, ?_, rfl⟩
  have hcap : resolve_hard_word_cap 5 (some 201) = 201 := by decide
  rw [hcap]
  norm_num

theorem attempt_continuation_k (oracle : Nat → Except Txt GenResponse)
    (k : Nat) (cur : Txt) (cap : Nat) :
    k ≤ (attempt_continuation oracle k cur cap).2 ∧
    (attempt_continuation oracle k cur cap).2 ≤ k + 1 := by
  unfold attempt_continuation
  by_cases hrem : ((0 : Int) ⊔ ((cap : Int) - (countWords cur : Int)) < 50)
  · rw [if_pos hrem]
    exact ⟨le_refl k, Nat.le_succ k⟩
  · rw [if_neg hrem]
    cases horacle : oracle k with
    | error e => exact ⟨Nat.le_succ k, le_refl (k + 1)⟩
    | ok more =>
      by_cases htt : textTruthy more.text = true
      · simp only [htt, if_true]
        omega
      · simp only [htt, Bool.false_eq_true, if_false]
        omega

theorem attempt_guided_eq (oracle : Nat → Except Txt GenResponse) (k : Nat)
    (cur : Txt) (cap : Nat) (g : Txt) :
    attempt_guided_continuation oracle k cur cap g =
      attempt_continuation oracle k cur cap := rfl

theorem continuation_phase_spec (oracle : Nat → Except Txt GenResponse)
    (k : Nat) (topic : Txt) (ctx : Option Txt) (st : Txt) (cap : Nat) :
    ((continuation_phase oracle k topic ctx st cap).k - k ≤ 2) ∧
    ((continuation_phase oracle k topic ctx st cap).guided = true ↔
      ((continuation_phase oracle k topic ctx st cap).entered = true ∧
       ∃ n, extract_expected_item_count topic ctx = some n ∧ n ≠ 0 ∧
         count_list_items
           (continuation_phase oracle k topic ctx st cap).after_generic < n ∧
         (cap : Int) - countWords
           (continuation_phase oracle k topic ctx st cap).after_generic > 60)) ∧
    ((continuation_phase oracle k topic ctx st cap).guidance =
      if (continuation_phase oracle k topic ctx st cap).guided then
        some (continuation_guidance
          (count_list_items
            (continuation_phase oracle k topic ctx st cap).after_generic)
          ((extract_expected_item_count topic ctx).getD 0))
      else none) := by
  have hg1 := attempt_continuation_k oracle k st cap
  have hg2 := attempt_continuation_k oracle
    (attempt_continuation oracle k st cap).2
    (attempt_continuation oracle k st cap).1 cap
  cases hext : extract_expected_item_count topic ctx with
  | none =>
    by_cases hA : countWords st < cap * 17 / 20
    · simp only [continuation_phase, hext, hA, decide_True, Bool.true_or, if_true]
      exact ⟨by omega, by simp, by simp⟩
    · simp only [continuation_phase, hext, hA, decide_False, Bool.false_or,
        Bool.or_false, Bool.false_eq_true, if_false]
      exact ⟨by omega, by simp, by simp⟩
  | some n =>
    by_cases hn0 : n = 0
    · subst hn0
      by_cases hA : countWords st < cap * 17 / 20
      · simp [continuation_phase, hext, hA]
        omega
      · simp [continuation_phase, hext, hA]
    · by_cases hB : count_list_items st < n
      · have hentered : (decide (countWords st < cap * 17 / 20) ||
            (decide (n ≠ 0) && decide (count_list_items st < n))) = true := by
          simp [hn0, hB]
        simp only [continuation_phase, hext, hentered, if_true, attempt_guided_eq]
        rw [if_pos hn0]
        split
        · next hc =>
          refine ⟨by simp only []; omega, ?_, by simp⟩
          simp only []
          constructor
          · intro _
            exact ⟨trivial, n, rfl, hn0, hc.1, hc.2⟩
          · intro _
            trivial
        · next hc =>
          refine ⟨by simp only []; omega, ?_, by simp⟩
          simp only []
          constructor
          · intro hfalse
            exact absurd hfalse (by simp)
          · rintro ⟨-, n', hn', -, hcnt, hrem⟩
            obtain rfl := Option.some.inj hn'
            exact absurd ⟨hcnt, hrem⟩ hc
      · by_cases hA : countWords st < cap * 17 / 20
        · have hentered : (decide (countWords st < cap * 17 / 20) ||
              (decide (n ≠ 0) && decide (count_list_items st < n))) = true := by
            simp [hA]
          simp only [continuation_phase, hext, hentered, if_true, attempt_guided_eq]
          rw [if_pos hn0]
          split
          · next hc =>
            refine ⟨by simp only []; omega, ?_, by simp⟩
            simp only []
            constructor
            · intro _
              exact ⟨trivial, n, rfl, hn0, hc.1, hc.2⟩
            · intro _
              trivial
          · next hc =>
            refine ⟨by simp only []; omega, ?_, by simp⟩
            simp only []
            constructor
            · intro hfalse
              exact absurd hfalse (by simp)
            · rintro ⟨-, n', hn', -, hcnt, hrem⟩
              obtain rfl := Option.some.inj hn'
              exact absurd ⟨hcnt, hrem⟩ hc
        · have hentered : (decide (countWords st < cap * 17 / 20) ||
              (decide (n ≠ 0) && decide (count_list_items st < n))) = false := by
            simp [hA, hB]
          simp only [continuation_phase, hext, hentered, Bool.false_eq_true,
            if_false]
          exact ⟨by omega, by simp, by simp⟩

/-- **C4** (corrected).  At most two continuation calls are issued per
`generate_script` run (one generic, then at most one guided).  The
guided continuation is issued exactly when the continuation block was
entered, a truthy expected item count `n` was detected, and after the
generic continuation the heuristic item count is still below `n` while
*strictly more than* 60 words of budget remain under the cap (the code
tests `(hard_word_cap - len(...)) > 60`; the claim's "at least 60"
fails at exactly 60, see the counterexample).  When issued, its guidance
names items `current+1` through `n` and instructs no repetition. -/
theorem c4_guided_continuation (oracle : Nat → Except Txt GenResponse)
    (topic : Txt) (length_minutes : Nat) (additional_context : Option Txt)
    (requested_word_cap : Option Int) :
    (generate_script oracle topic length_minutes additional_context
      requested_word_cap).2.continuation_calls ≤ 2 ∧
    ((generate_script oracle topic length_minutes additional_context
        requested_word_cap).2.guided_issued = true ↔
      ((generate_script oracle topic length_minutes additional_context
          requested_word_cap).2.entered_continuation = true ∧
       ∃ n, extract_expected_item_count topic additional_context = some n ∧
         n ≠ 0 ∧
         count_list_items (generate_script oracle topic length_minutes
           additional_context requested_word_cap).2.after_generic < n ∧
         (resolve_hard_word_cap length_minutes requested_word_cap : Int) -
           countWords (generate_script oracle topic length_minutes
             additional_context requested_word_cap).2.after_generic > 60)) ∧
    ((generate_script oracle topic length_minutes additional_context
        requested_word_cap).2.guidance =
      if (generate_script oracle topic length_minutes additional_context
          requested_word_cap).2.guided_issued then
        some (continuation_guidance
          (count_list_items (generate_script oracle topic length_minutes
            additional_context requested_word_cap).2.after_generic)
          ((extract_expected_item_count topic additional_context).getD 0))
      else none) := by
  rcases generate_script_shape oracle topic length_minutes additional_context
      requested_word_cap with ⟨e, k, heq⟩ | ⟨k, st, -, heq⟩
  · rw [heq]
    refine ⟨by simp [emptyTrace], ?_, by simp [emptyTrace]⟩
    simp [emptyTrace]
  · rw [heq]
    obtain ⟨h1, -, h3, h4, h5, h6⟩ := finalize_run_trace
      (continuation_phase oracle k topic additional_context st
        (resolve_hard_word_cap length_minutes requested_word_cap))
      k st (resolve_hard_word_cap length_minutes requested_word_cap)
    rw [h1, h3, h4, h5, h6]
    exact continuation_phase_spec oracle k topic additional_context st
      (resolve_hard_word_cap length_minutes requested_word_cap)

/-- Witness for C4 at a concrete run (no expected count, no guided
continuation, zero continuation calls within bound). -/
theorem c4_guided_continuation_witness :
    (generate_script oracleSmallOk topicPlain 1 none none).2.continuation_calls
      ≤ 2 ∧
    ((generate_script oracleSmallOk topicPlain 1 none none).2.guided_issued
        = true ↔
      ((generate_script oracleSmallOk topicPlain 1 none
          none).2.entered_continuation = true ∧
       ∃ n, extract_expected_item_count topicPlain none = some n ∧ n ≠ 0 ∧
         count_list_items (generate_script oracleSmallOk topicPlain 1 none
           none).2.after_generic < n ∧
         (resolve_hard_word_cap 1 none : Int) -
           countWords (generate_script oracleSmallOk topicPlain 1 none
             none).2.after_generic > 60)) ∧
    ((generate_script oracleSmallOk topicPlain 1 none none).2.guidance =
      if (generate_script oracleSmallOk topicPlain 1 none
          none).2.guided_issued then
        some (continuation_guidance
          (count_list_items (generate_script oracleSmallOk topicPlain 1 none
            none).2.after_generic)
          ((extract_expected_item_count topicPlain none).getD 0))
      else none) :=
  c4_guided_continuation oracleSmallOk topicPlain 1 none none

/-- **C4** (counterexample to the claim as stated).  Topic "Top 5
laptops" detects an expected count of 5; with an override of 200 the cap
resolves to 200, and the first response has 140 words and 3 items, so
the continuation block is entered and the generic continuation is issued
(returning no text).  Afterwards the item count is still 3 < 5 and
exactly 60 words of budget remain — "at least 60" — yet no guided
continuation is issued, because the code requires strictly more
than 60. -/
theorem c4_counterexample :
    extract_expected_item_count topicTop5 none = some 5 ∧
    (generate_script oracleItems topicTop5 5 none
      (some 200)).2.entered_continuation = true ∧
    (generate_script oracleItems topicTop5 5 none
      (some 200)).2.continuation_calls = 1 ∧
    count_list_items (generate_script oracleItems topicTop5 5 none
      (some 200)).2.after_generic = 3 ∧
    ((resolve_hard_word_cap 5 (some 200) : Int) -
      countWords (generate_script oracleItems topicTop5 5 none
        (some 200)).2.after_generic = 60) ∧
    (generate_script oracleItems topicTop5 5 none (some 200)).2.guided_issued
      = false := by
  refine ⟨by decide, rfl, rfl, rfl, by decide, rfl⟩

/-! ## Lemmas: the cleaning step -/

theorem subTripleFuel_congr : ∀ (f1 f2 : Nat) (l : List Char),
    l.length ≤ f1 → l.length ≤ f2 → subTripleFuel f1 l = subTripleFuel f2 l := by
  intro f1
  induction f1 with
  | zero =>
    intro f2 l h1 _
    have : l = [] := List.eq_nil_of_length_eq_zero (by omega)
    subst this
    cases f2 <;> rfl
  | succ f ih =>
    intro f2 l h1 h2
    cases l with
    | nil => cases f2 <;> rfl
    | cons c cs =>
      cases f2 with
      | zero => simp at h2
      | succ g =>
        simp only [subTripleFuel]
        cases htl : tripleLen (c :: cs) with
        | some k =>
          simp only []
          have hd : (cs.drop (k - 1)).length ≤ f := by
            have := List.length_drop (k - 1) cs
            simp only [List.length_cons] at h1
            omega
          have hd2 : (cs.drop (k - 1)).length ≤ g := by
            have := List.length_drop (k - 1) cs
            simp only [List.length_cons] at h2
            omega
          rw [ih g _ hd hd2]
        | none =>
          simp only []
          have hd : cs.length ≤ f := by
            simp only [List.length_cons] at h1
            omega
          have hd2 : cs.length ≤ g := by
            simp only [List.length_cons] at h2
            omega
          rw [ih g _ hd hd2]

theorem subTriple_cons (c : Char) (cs : List Char) :
    subTriple (c :: cs) =
      match tripleLen (c :: cs) with
      | some k => '\n' :: '\n' :: subTriple (cs.drop (k - 1))
      | none => c :: subTriple cs := by
  show subTripleFuel (c :: cs).length (c :: cs) = _
  simp only [List.length_cons, subTripleFuel]
  cases htl : tripleLen (c :: cs) with
  | some k =>
    simp only []
    rw [subTripleFuel_congr cs.length (cs.drop (k - 1)).length _
      (by have := List.length_drop (k - 1) cs; omega) (le_refl _)]
    rfl
  | none => rfl

theorem collapseSpacesFuel_congr : ∀ (f1 f2 : Nat) (l : List Char),
    l.length ≤ f1 → l.length ≤ f2 →
    collapseSpacesFuel f1 l = collapseSpacesFuel f2 l := by
  intro f1
  induction f1 with
  | zero =>
    intro f2 l h1 _
    have : l = [] := List.eq_nil_of_length_eq_zero (by omega)
    subst this
    cases f2 <;> rfl
  | succ f ih =>
    intro f2 l h1 h2
    cases l with
    | nil => cases f2 <;> rfl
    | cons c cs =>
      cases f2 with
      | zero => simp at h2
      | succ g =>
        simp only [collapseSpacesFuel]
        have hsub := (List.dropWhile_sublist (l := cs) (p := isBlankTab)).length_le
        simp only [List.length_cons] at h1 h2
        by_cases hbt : isBlankTab c = true
        · rw [if_pos hbt, if_pos hbt,
            ih g _ (by omega) (by omega)]
        · rw [if_neg hbt, if_neg hbt, ih g _ (by omega) (by omega)]

theorem collapseSpaces_cons (c : Char) (cs : List Char) :
    collapseSpaces (c :: cs) =
      if isBlankTab c then ' ' :: collapseSpaces (cs.dropWhile isBlankTab)
      else c :: collapseSpaces cs := by
  show collapseSpacesFuel (c :: cs).length (c :: cs) = _
  simp only [List.length_cons, collapseSpacesFuel]
  have hsub := (List.dropWhile_sublist (l := cs) (p := isBlankTab)).length_le
  by_cases hbt : isBlankTab c = true
  · rw [if_pos hbt, if_pos hbt,
      collapseSpacesFuel_congr cs.length (cs.dropWhile isBlankTab).length _
        (by omega) (le_refl _)]
    rfl
  · rw [if_neg hbt, if_neg hbt]
    rfl

theorem mem_subTriple : ∀ (n : Nat) (l : List Char), l.length ≤ n →
    ∀ c, c ∈ subTriple l → c ∈ l ∨ c = '\n' := by
  intro n
  induction n with
  | zero =>
    intro l h c hc
    have : l = [] := List.eq_nil_of_length_eq_zero (by omega)
    subst this
    simp [subTriple, subTripleFuel] at hc
  | succ m ih =>
    intro l h c hc
    cases l with
    | nil => simp [subTriple, subTripleFuel] at hc
    | cons d cs =>
      rw [subTriple_cons] at hc
      cases htl : tripleLen (d :: cs) with
      | some k =>
        rw [htl] at hc
        simp only [List.mem_cons] at hc
        rcases hc with h1 | h1 | h1
        · exact Or.inr h1
        · exact Or.inr h1
        · rcases ih (cs.drop (k - 1))
            (by have := List.length_drop (k - 1) cs
                simp only [List.length_cons] at h; omega) c h1 with h2 | h2
          · exact Or.inl (by simp [List.mem_cons, List.drop_subset _ cs h2])
          · exact Or.inr h2
      | none =>
        rw [htl] at hc
        rcases List.mem_cons.mp hc with h1 | h1
        · exact Or.inl (by simp [h1])
        · rcases ih cs (by simp only [List.length_cons] at h; omega) c h1 with
            h2 | h2
          · exact Or.inl (by simp [h2])
          · exact Or.inr h2

theorem mem_collapseSpaces : ∀ (n : Nat) (l : List Char), l.length ≤ n →
    ∀ c, c ∈ collapseSpaces l → c ∈ l ∨ c = ' ' := by
  intro n
  induction n with
  | zero =>
    intro l h c hc
    have : l = [] := List.eq_nil_of_length_eq_zero (by omega)
    subst this
    simp [collapseSpaces, collapseSpacesFuel] at hc
  | succ m ih =>
    intro l h c hc
    cases l with
    | nil => simp [collapseSpaces, collapseSpacesFuel] at hc
    | cons d cs =>
      rw [collapseSpaces_cons] at hc
      have hsub := (List.dropWhile_sublist (l := cs) (p := isBlankTab)).length_le
      simp only [List.length_cons] at h
      by_cases hbt : isBlankTab d = true
      · rw [if_pos hbt] at hc
        rcases List.mem_cons.mp hc with h1 | h1
        · exact Or.inr h1
        · rcases ih (cs.dropWhile isBlankTab) (by omega) c h1 with h2 | h2
          · exact Or.inl (by
              simp [List.mem_cons,
                (List.dropWhile_sublist (l := cs) (p := isBlankTab)).subset h2])
          · exact Or.inr h2
      · rw [if_neg hbt] at hc
        rcases List.mem_cons.mp hc with h1 | h1
        · exact Or.inl (by simp [h1])
        · rcases ih cs (by omega) c h1 with h2 | h2
          · exact Or.inl (by simp [h2])
          · exact Or.inr h2

theorem mem_replaceCrLf : ∀ (n : Nat) (l : List Char), l.length ≤ n →
    ∀ c, c ∈ replaceCrLf l → c ∈ l ∨ c = '\n' := by
  intro n
  induction n with
  | zero =>
    intro l h c hc
    have : l = [] := List.eq_nil_of_length_eq_zero (by omega)
    subst this
    simp [replaceCrLf] at hc
  | succ m ih =>
    intro l h c hc
    cases l with
    | nil => simp [replaceCrLf] at hc
    | cons a l' =>
      cases l' with
      | nil =>
        simp only [replaceCrLf, List.mem_singleton] at hc
        exact Or.inl (by simp [hc])
      | cons b l'' =>
        simp only [replaceCrLf] at hc
        simp only [List.length_cons] at h
        split at hc
        · rcases List.mem_cons.mp hc with h1 | h1
          · exact Or.inr h1
          · rcases ih l'' (by omega) c h1 with h2 | h2
            · exact Or.inl (by simp [h2])
            · exact Or.inr h2
        · rcases List.mem_cons.mp hc with h1 | h1
          · exact Or.inl (by simp [h1])
          · rcases ih (b :: l'') (by simp only [List.length_cons]; omega) c h1
              with h2 | h2
            · exact Or.inl (by simp [List.mem_cons] at h2 ⊢; tauto)
            · exact Or.inr h2

theorem mem_replaceCr (l : List Char) (c : Char) (hc : c ∈ replaceCr l) :
    c ∈ l ∨ c = '\n' := by
  unfold replaceCr at hc
  obtain ⟨d, hd, hdc⟩ := List.mem_map.mp hc
  by_cases hdr : d = '\r'
  · rw [if_pos hdr] at hdc
    exact Or.inr hdc.symm
  · rw [if_neg hdr] at hdc
    exact Or.inl (hdc ▸ hd)

theorem replaceCr_no_cr (l : List Char) : '\r' ∉ replaceCr l := by
  intro h
  obtain ⟨d, -, hdc⟩ := List.mem_map.mp h
  by_cases hdr : d = '\r'
  · rw [if_pos hdr] at hdc
    cases hdc
  · rw [if_neg hdr] at hdc
    exact hdr hdc

theorem replaceCr_of_no_cr (l : List Char) (h : '\r' ∉ l) : replaceCr l = l := by
  induction l with
  | nil => rfl
  | cons a l ih =>
    show (if a = '\r' then '\n' else a) :: replaceCr l = a :: l
    rw [if_neg (fun ha => h (by simp [ha])),
      ih (fun hm => h (by simp [hm]))]

theorem replaceCrLf_of_no_cr : ∀ (n : Nat) (l : List Char), l.length ≤ n →
    '\r' ∉ l → replaceCrLf l = l := by
  intro n
  induction n with
  | zero =>
    intro l h _
    have : l = [] := List.eq_nil_of_length_eq_zero (by omega)
    subst this
    rfl
  | succ m ih =>
    intro l h hcr
    cases l with
    | nil => rfl
    | cons a l' =>
      cases l' with
      | nil => rfl
      | cons b l'' =>
        simp only [replaceCrLf]
        rw [if_neg (by
          rintro ⟨ha, -⟩
          exact hcr (by simp [ha]))]
        simp only [List.length_cons] at h
        rw [ih (b :: l'') (by simp only [List.length_cons]; omega)
          (fun hmem => hcr (by simp [List.mem_cons] at hmem ⊢; tauto))]

theorem takeWhile_append_all {p : Char → Bool} : ∀ (X Y : List Char),
    (∀ c ∈ X, p c = true) → (X ++ Y).takeWhile p = X ++ Y.takeWhile p := by
  intro X
  induction X with
  | nil => intro Y _; rfl
  | cons a X ih =>
    intro Y h
    simp only [List.cons_append, List.takeWhile_cons, h a (by simp), if_true]
    rw [ih Y (fun c hc => h c (by simp [hc]))]

theorem first_split {a : Char} : ∀ l : List Char, a ∈ l →
    ∃ A T, l = A ++ a :: T ∧ a ∉ A := by
  intro l
  induction l with
  | nil => intro h; simp at h
  | cons c cs ih =>
    intro h
    by_cases hca : c = a
    · exact ⟨[], cs, by simp [hca], by simp⟩
    · rcases List.mem_cons.mp h with h1 | h1
      · exact absurd h1.symm hca
      · obtain ⟨A, T, hAT, hnA⟩ := ih h1
        exact ⟨c :: A, T, by simp [hAT], by
          simp only [List.mem_cons, not_or]
          exact ⟨fun hac => hca hac.symm, hnA⟩⟩

theorem two_nl_split (x : List Char) (h : 2 ≤ nlRunCount x) :
    ∃ A B C, x = A ++ '\n' :: (B ++ '\n' :: C) ∧
      (∀ c ∈ A, isSpace c = true) ∧ (∀ c ∈ B, isSpace c = true) := by
  unfold nlRunCount at h
  have hmem : '\n' ∈ x.takeWhile isSpace := by
    have hpos : 0 < (x.takeWhile isSpace).countP (fun c => c = '\n') := by omega
    obtain ⟨a, ha, hpa⟩ := List.countP_pos.mp hpos
    simp only [decide_eq_true_eq] at hpa
    exact hpa ▸ ha
  obtain ⟨A, T, hAT, hnA⟩ := first_split _ hmem
  have hcA : A.countP (fun c => c = '\n') = 0 := by
    rw [List.countP_eq_zero]
    intro a ha
    simp only [decide_eq_true_eq]
    intro haeq
    exact hnA (haeq ▸ ha)
  rw [hAT, List.countP_append, List.countP_cons, hcA] at h
  simp only [decide_True, if_true] at h
  have hTmem : '\n' ∈ T := by
    have hpos : 0 < T.countP (fun c => c = '\n') := by omega
    obtain ⟨a, ha, hpa⟩ := List.countP_pos.mp hpos
    simp only [decide_eq_true_eq] at hpa
    exact hpa ▸ ha
  obtain ⟨B, C, hBC, -⟩ := first_split T hTmem
  have hx : x = A ++ '\n' :: (B ++ '\n' :: (C ++ x.dropWhile isSpace)) := by
    conv_lhs => rw [← List.takeWhile_append_dropWhile (p := isSpace) (l := x)]
    rw [hAT, hBC]
    simp
  refine ⟨A, B, C ++ x.dropWhile isSpace, hx, ?_, ?_⟩
  · intro c hc
    exact List.mem_takeWhile_imp (hAT ▸ (by simp [hc] : c ∈ A ++ '\n' :: T))
  · intro c hc
    refine List.mem_takeWhile_imp (l := x) ?_
    rw [hAT, hBC]
    simp [hc]

theorem wsNlEnds_mem_spec : ∀ (l : List Char) (e : Nat), e ∈ wsNlEnds l →
    ∃ A B, l = A ++ '\n' :: B ∧ e = A.length + 1 ∧
      ∀ c ∈ A, isSpace c = true := by
  intro l
  induction l with
  | nil => intro e he; simp [wsNlEnds] at he
  | cons c cs ih =>
    intro e he
    unfold wsNlEnds at he
    by_cases hsp : isSpace c = true
    · rw [if_pos hsp] at he
      rcases List.mem_append.mp he with h1 | h1
      · obtain ⟨e', he', hee⟩ := List.mem_map.mp h1
        obtain ⟨A, B, hAB, hlen, hA⟩ := ih e' he'
        refine ⟨c :: A, B, by simp [hAB], by simp only [List.length_cons]; omega, ?_⟩
        intro d hd
        rcases List.mem_cons.mp hd with h2 | h2
        · exact h2 ▸ hsp
        · exact hA d h2
      · by_cases hcn : c = '\n'
        · rw [if_pos hcn] at h1
          simp only [List.mem_singleton] at h1
          exact ⟨[], cs, by simp [hcn], by simp [h1], by simp⟩
        · rw [if_neg hcn] at h1
          simp at h1
    · rw [if_neg hsp] at he
      simp at he

theorem wsNlEnds_mem_of_split : ∀ (A B : List Char),
    (∀ c ∈ A, isSpace c = true) →
    A.length + 1 ∈ wsNlEnds (A ++ '\n' :: B) := by
  intro A
  induction A with
  | nil =>
    intro B _
    show 1 ∈ wsNlEnds ('\n' :: B)
    unfold wsNlEnds
    rw [if_pos (by decide), if_pos rfl]
    exact List.mem_append.mpr (Or.inr (by simp))
  | cons a A ih =>
    intro B h
    have hsa : isSpace a = true := h a (by simp)
    show A.length + 1 + 1 ∈ wsNlEnds (a :: (A ++ '\n' :: B))
    unfold wsNlEnds
    rw [if_pos hsa]
    refine List.mem_append.mpr (Or.inl ?_)
    exact List.mem_map.mpr ⟨A.length + 1, ih B (fun c hc => h c (by simp [hc])), rfl⟩

theorem wsNlEnds_head_max : ∀ (l : List Char) (e0 : Nat) (es : List Nat),
    wsNlEnds l = e0 :: es → ∀ e ∈ wsNlEnds l, e ≤ e0 := by
  intro l
  induction l with
  | nil => intro e0 es h; simp [wsNlEnds] at h
  | cons c cs ih =>
    intro e0 es heq e he
    rw [show wsNlEnds (c :: cs) =
        if isSpace c then
          (wsNlEnds cs).map (· + 1) ++ (if c = '\n' then [1] else [])
        else [] from rfl] at heq he
    by_cases hsp : isSpace c = true
    · rw [if_pos hsp] at heq he
      cases hX : wsNlEnds cs with
      | nil =>
        rw [hX] at heq he
        simp only [List.map_nil, List.nil_append] at heq he
        by_cases hc : c = '\n'
        · rw [if_pos hc] at heq he
          obtain ⟨h1, -⟩ := List.cons.inj heq
          simp only [List.mem_singleton] at he
          omega
        · rw [if_neg hc] at he
          simp at he
      | cons x0 xs =>
        rw [hX] at heq he
        simp only [List.map_cons, List.cons_append] at heq he
        obtain ⟨h1, -⟩ := List.cons.inj heq
        rcases List.mem_cons.mp he with h2 | h2
        · omega
        · rcases List.mem_append.mp h2 with h3 | h3
          · obtain ⟨x, hx, hex⟩ := List.mem_map.mp h3
            have hxle : x ≤ x0 :=
              ih x0 xs hX x (by rw [hX]; exact List.mem_cons.mpr (Or.inr hx))
            omega
          · by_cases hc : c = '\n'
            · rw [if_pos hc] at h3
              simp only [List.mem_singleton] at h3
              omega
            · rw [if_neg hc] at h3
              simp at h3
    · rw [if_neg hsp] at he
      simp at he

theorem wsNlEnds_pos (l : List Char) (e : Nat) (he : e ∈ wsNlEnds l) : 1 ≤ e := by
  obtain ⟨A, B, -, hlen, -⟩ := wsNlEnds_mem_spec l e he
  omega

theorem one_nl_split (x : List Char) (h : 1 ≤ nlRunCount x) :
    ∃ A B, x = A ++ '\n' :: B ∧ ∀ c ∈ A, isSpace c = true := by
  unfold nlRunCount at h
  have hmem : '\n' ∈ x.takeWhile isSpace := by
    have hpos : 0 < (x.takeWhile isSpace).countP (fun c => c = '\n') := by omega
    obtain ⟨a, ha, hpa⟩ := List.countP_pos.mp hpos
    simp only [decide_eq_true_eq] at hpa
    exact hpa ▸ ha
  obtain ⟨A, T, hAT, -⟩ := first_split _ hmem
  have hx : x = A ++ '\n' :: (T ++ x.dropWhile isSpace) := by
    conv_lhs => rw [← List.takeWhile_append_dropWhile (p := isSpace) (l := x)]
    rw [hAT]
    simp
  exact ⟨A, T ++ x.dropWhile isSpace, hx, fun c hc =>
    List.mem_takeWhile_imp (hAT ▸ (by simp [hc] : c ∈ A ++ '\n' :: T))⟩

theorem tripleLen_cons_nl (cs : List Char) :
    tripleLen ('\n' :: cs) =
      match (wsNlEnds cs).find? (fun e => !(wsNlEnds (cs.drop e)).isEmpty) with
      | some e1 =>
        match wsNlEnds (cs.drop e1) with
        | e2 :: _ => some (1 + e1 + e2)
        | [] => none
      | none => none := rfl

theorem tripleLen_some_parts (cs : List Char) (k : Nat)
    (h : tripleLen ('\n' :: cs) = some k) :
    ∃ e1 e2 tail,
      (wsNlEnds cs).find? (fun e => !(wsNlEnds (cs.drop e)).isEmpty) = some e1 ∧
      wsNlEnds (cs.drop e1) = e2 :: tail ∧ k = 1 + e1 + e2 := by
  rw [tripleLen_cons_nl] at h
  cases hfind : (wsNlEnds cs).find? (fun e => !(wsNlEnds (cs.drop e)).isEmpty) with
  | none => rw [hfind] at h; simp at h
  | some e1 =>
    rw [hfind] at h
    simp only [] at h
    cases hW : wsNlEnds (cs.drop e1) with
    | nil => rw [hW] at h; simp at h
    | cons e2 tail =>
      rw [hW] at h
      simp only [] at h
      exact ⟨e1, e2, tail, rfl, hW, (Option.some.inj h).symm⟩

theorem tripleLen_some_head (c : Char) (cs : List Char) (k : Nat)
    (h : tripleLen (c :: cs) = some k) : c = '\n' := by
  by_contra hc
  have hnone : tripleLen (c :: cs) = none := by
    unfold tripleLen
    split
    next heq => exact absurd (List.cons.inj heq).1 hc
    next => rfl
  rw [hnone] at h
  exact Option.noConfusion h

theorem drop_of_split (A B : List Char) :
    (A ++ '\n' :: B).drop (A.length + 1) = B := by
  rw [show A ++ '\n' :: B = (A ++ ['\n']) ++ B by simp,
    show A.length + 1 = (A ++ ['\n']).length by simp]
  exact List.drop_left _ _

theorem tripleLen_some_spec (c : Char) (cs : List Char) (k : Nat)
    (h : tripleLen (c :: cs) = some k) :
    c = '\n' ∧ 3 ≤ k ∧ nlRunCount (cs.drop (k - 1)) = 0 := by
  have hc := tripleLen_some_head c cs k h
  subst hc
  obtain ⟨e1, e2, tail, hfind, hW, hk⟩ := tripleLen_some_parts cs k h
  have he1 : e1 ∈ wsNlEnds cs := List.mem_of_find?_eq_some hfind
  have he1p := wsNlEnds_pos cs e1 he1
  have he2 : e2 ∈ wsNlEnds (cs.drop e1) := by
    rw [hW]; exact List.mem_cons_self _ _
  have he2p := wsNlEnds_pos _ e2 he2
  refine ⟨rfl, by omega, ?_⟩
  have hdd : cs.drop (k - 1) = (cs.drop e1).drop e2 := by
    rw [List.drop_drop]
    congr 1
    omega
  rw [hdd]
  by_contra hne
  have hge : 1 ≤ nlRunCount ((cs.drop e1).drop e2) := by omega
  obtain ⟨A, B, hAB, hA⟩ := one_nl_split _ hge
  obtain ⟨A2, B2, hA2B2, he2len, hA2⟩ := wsNlEnds_mem_spec _ e2 he2
  have hB2 : (cs.drop e1).drop e2 = B2 := by
    rw [hA2B2, he2len]
    exact drop_of_split A2 B2
  have hsplit2 : cs.drop e1 = (A2 ++ '\n' :: A) ++ '\n' :: B := by
    rw [hA2B2, hB2.symm.trans hAB]
    simp
  have hbig : (A2 ++ '\n' :: A).length + 1 ∈ wsNlEnds (cs.drop e1) := by
    rw [hsplit2]
    refine wsNlEnds_mem_of_split _ _ ?_
    intro d hd
    rcases List.mem_append.mp hd with h1 | h1
    · exact hA2 d h1
    · rcases List.mem_cons.mp h1 with h2 | h2
      · subst h2; decide
      · exact hA d h2
  have hle := wsNlEnds_head_max _ e2 tail hW _ hbig
  simp only [List.length_append, List.length_cons] at hle
  omega

theorem tripleLen_some_count (cs : List Char) (k : Nat)
    (h : tripleLen ('\n' :: cs) = some k) : 2 ≤ nlRunCount cs := by
  obtain ⟨e1, e2, tail, hfind, hW, -⟩ := tripleLen_some_parts cs k h
  have he1 : e1 ∈ wsNlEnds cs := List.mem_of_find?_eq_some hfind
  obtain ⟨A, B, hAB, he1len, hA⟩ := wsNlEnds_mem_spec cs e1 he1
  have he2 : e2 ∈ wsNlEnds (cs.drop e1) := by
    rw [hW]; exact List.mem_cons_self _ _
  obtain ⟨A2, B2, hA2B2, -, hA2⟩ := wsNlEnds_mem_spec _ e2 he2
  have hdrop : cs.drop e1 = B := by
    rw [hAB, he1len]
    exact drop_of_split A B
  have hcs : cs = (A ++ '\n' :: (A2 ++ ['\n'])) ++ B2 := by
    rw [hAB, ← hdrop, hA2B2]
    simp
  have hX : ∀ d ∈ A ++ '\n' :: (A2 ++ ['\n']), isSpace d = true := by
    intro d hd
    rcases List.mem_append.mp hd with h1 | h1
    · exact hA d h1
    · rcases List.mem_cons.mp h1 with h2 | h2
      · subst h2; decide
      · rcases List.mem_append.mp h2 with h3 | h3
        · exact hA2 d h3
        · simp only [List.mem_singleton] at h3
          subst h3; decide
  unfold nlRunCount
  rw [hcs, takeWhile_append_all _ _ hX, List.countP_append]
  have h2 : 2 ≤ (A ++ '\n' :: (A2 ++ ['\n'])).countP (fun c => c = '\n') := by
    simp [List.countP_append, List.countP_cons]
    omega
  omega

theorem tripleLen_none_count (cs : List Char)
    (h : tripleLen ('\n' :: cs) = none) : nlRunCount cs ≤ 1 := by
  by_contra hc
  have h2 : 2 ≤ nlRunCount cs := by omega
  obtain ⟨A, B, C, hsplit, hA, hB⟩ := two_nl_split cs h2
  have he1 : A.length + 1 ∈ wsNlEnds cs := by
    rw [hsplit]; exact wsNlEnds_mem_of_split A _ hA
  have hd : cs.drop (A.length + 1) = B ++ '\n' :: C := by
    rw [hsplit]
    exact drop_of_split A _
  have he2 : B.length + 1 ∈ wsNlEnds (cs.drop (A.length + 1)) := by
    rw [hd]; exact wsNlEnds_mem_of_split B C hB
  have hpred : (!(wsNlEnds (cs.drop (A.length + 1))).isEmpty) = true := by
    cases hWc : wsNlEnds (cs.drop (A.length + 1)) with
    | nil => rw [hWc] at he2; simp at he2
    | cons _ _ => rfl
  rw [tripleLen_cons_nl] at h
  cases hfind : (wsNlEnds cs).find? (fun e => !(wsNlEnds (cs.drop e)).isEmpty) with
  | none =>
    have := List.find?_eq_none.mp hfind _ he1
    exact this hpred
  | some e1 =>
    have hp := List.find?_some hfind
    rw [hfind] at h
    simp only [] at h
    cases hWc : wsNlEnds (cs.drop e1) with
    | nil => rw [hWc] at hp; simp at hp
    | cons e2 t => rw [hWc] at h; simp at h

theorem goodRuns_nil : GoodRuns [] := by
  intro i rest h
  rw [List.drop_nil] at h
  exact absurd h (by simp)

theorem goodRuns_tail (c : Char) (l : List Char) (h : GoodRuns (c :: l)) :
    GoodRuns l := by
  intro i rest hi
  exact h (i + 1) rest (by rw [List.drop_succ_cons]; exact hi)

theorem goodRuns_dropWhile (p : Char → Bool) : ∀ (l : List Char),
    GoodRuns l → GoodRuns (l.dropWhile p) := by
  intro l
  induction l with
  | nil => intro h; exact h
  | cons c cs ih =>
    intro h
    rw [List.dropWhile_cons]
    by_cases hp : p c = true
    · rw [if_pos hp]
      exact ih (goodRuns_tail _ _ h)
    · rw [if_neg hp]
      exact h

theorem blank_isSpace (c : Char) (h : isBlankTab c = true) : isSpace c = true := by
  unfold isBlankTab at h
  simp only [Bool.or_eq_true, decide_eq_true_eq] at h
  rcases h with h | h <;> subst h <;> decide

theorem nlRunCount_cons_nl (l : List Char) :
    nlRunCount ('\n' :: l) = 1 + nlRunCount l := by
  unfold nlRunCount
  rw [List.takeWhile_cons, if_pos (show isSpace '\n' = true from rfl),
    List.countP_cons]
  simp
  omega

theorem nlRunCount_cons_space_ne (c : Char) (l : List Char)
    (hs : isSpace c = true) (hne : c ≠ '\n') :
    nlRunCount (c :: l) = nlRunCount l := by
  unfold nlRunCount
  rw [List.takeWhile_cons, if_pos hs]
  simp [List.countP_cons, hne]

theorem nlRunCount_cons_nonspace (c : Char) (l : List Char)
    (hs : isSpace c = false) : nlRunCount (c :: l) = 0 := by
  unfold nlRunCount
  rw [List.takeWhile_cons, if_neg (by simp [hs])]
  rfl

theorem nlRunCount_subTriple_zero : ∀ (n : Nat) (l : List Char), l.length ≤ n →
    nlRunCount l = 0 → nlRunCount (subTriple l) = 0 := by
  intro n
  induction n with
  | zero =>
    intro l hl h
    have : l = [] := List.eq_nil_of_length_eq_zero (by omega)
    subst this
    exact h
  | succ m ih =>
    intro l hl h
    cases l with
    | nil => exact h
    | cons c cs =>
      simp only [List.length_cons] at hl
      rw [subTriple_cons]
      cases htl : tripleLen (c :: cs) with
      | some k =>
        exfalso
        obtain ⟨hc, -, -⟩ := tripleLen_some_spec c cs k htl
        subst hc
        rw [nlRunCount_cons_nl] at h
        omega
      | none =>
        simp only []
        by_cases hsp : isSpace c = true
        · by_cases hcn : c = '\n'
          · exfalso
            subst hcn
            rw [nlRunCount_cons_nl] at h
            omega
          · rw [nlRunCount_cons_space_ne c cs hsp hcn] at h
            rw [nlRunCount_cons_space_ne c (subTriple cs) hsp hcn]
            exact ih cs (by omega) h
        · have hsf : isSpace c = false := by
            cases hE : isSpace c
            · rfl
            · exact absurd hE hsp
          rw [nlRunCount_cons_nonspace c (subTriple cs) hsf]

theorem nlRunCount_subTriple_le : ∀ (n : Nat) (l : List Char), l.length ≤ n →
    nlRunCount l ≤ 1 → nlRunCount (subTriple l) ≤ 1 := by
  intro n
  induction n with
  | zero =>
    intro l hl h
    have : l = [] := List.eq_nil_of_length_eq_zero (by omega)
    subst this
    exact h
  | succ m ih =>
    intro l hl h
    cases l with
    | nil => exact h
    | cons c cs =>
      simp only [List.length_cons] at hl
      rw [subTriple_cons]
      cases htl : tripleLen (c :: cs) with
      | some k =>
        exfalso
        obtain ⟨hc, -, -⟩ := tripleLen_some_spec c cs k htl
        subst hc
        have h2 := tripleLen_some_count cs k htl
        rw [nlRunCount_cons_nl] at h
        omega
      | none =>
        simp only []
        by_cases hsp : isSpace c = true
        · by_cases hcn : c = '\n'
          · subst hcn
            rw [nlRunCount_cons_nl] at h
            rw [nlRunCount_cons_nl]
            have h0 : nlRunCount (subTriple cs) = 0 :=
              nlRunCount_subTriple_zero m cs (by omega) (by omega)
            omega
          · rw [nlRunCount_cons_space_ne c cs hsp hcn] at h
            rw [nlRunCount_cons_space_ne c (subTriple cs) hsp hcn]
            exact ih cs (by omega) h
        · have hsf : isSpace c = false := by
            cases hE : isSpace c
            · rfl
            · exact absurd hE hsp
          rw [nlRunCount_cons_nonspace c (subTriple cs) hsf]
          omega

theorem goodRuns_subTriple : ∀ (n : Nat) (l : List Char), l.length ≤ n →
    GoodRuns (subTriple l) := by
  intro n
  induction n with
  | zero =>
    intro l hl
    have : l = [] := List.eq_nil_of_length_eq_zero (by omega)
    subst this
    exact goodRuns_nil
  | succ m ih =>
    intro l hl
    cases l with
    | nil => exact goodRuns_nil
    | cons c cs =>
      simp only [List.length_cons] at hl
      rw [subTriple_cons]
      cases htl : tripleLen (c :: cs) with
      | some k =>
        simp only []
        obtain ⟨hc, hk3, hz⟩ := tripleLen_some_spec c cs k htl
        have hlen : (cs.drop (k - 1)).length ≤ m := by
          have := List.length_drop (k - 1) cs
          omega
        have hG := ih _ hlen
        have h0 : nlRunCount (subTriple (cs.drop (k - 1))) = 0 :=
          nlRunCount_subTriple_zero m _ hlen hz
        intro i rest hi
        cases i with
        | zero =>
          rw [List.drop_zero] at hi
          obtain ⟨-, h2⟩ := List.cons.inj hi
          rw [← h2, nlRunCount_cons_nl, h0]
        | succ i =>
          cases i with
          | zero =>
            rw [List.drop_succ_cons, List.drop_zero] at hi
            obtain ⟨-, h2⟩ := List.cons.inj hi
            rw [← h2, h0]
            omega
          | succ i =>
            rw [List.drop_succ_cons, List.drop_succ_cons] at hi
            exact hG i rest hi
      | none =>
        simp only []
        have hGcs : GoodRuns (subTriple cs) := ih cs (by omega)
        intro i rest hi
        cases i with
        | zero =>
          rw [List.drop_zero] at hi
          obtain ⟨hc, h2⟩ := List.cons.inj hi
          subst hc
          have h1 : nlRunCount cs ≤ 1 := tripleLen_none_count cs htl
          have hle := nlRunCount_subTriple_le m cs (by omega) h1
          rw [← h2]
          exact hle
        | succ i =>
          rw [List.drop_succ_cons] at hi
          exact hGcs i rest hi

theorem nlRunCount_dropWhile_blank (l : List Char) :
    nlRunCount (l.dropWhile isBlankTab) = nlRunCount l := by
  have hsp : ∀ c ∈ l.takeWhile isBlankTab, isSpace c = true := fun c hc =>
    blank_isSpace c (List.mem_takeWhile_imp hc)
  conv_rhs => rw [← List.takeWhile_append_dropWhile (p := isBlankTab) (l := l)]
  unfold nlRunCount
  rw [takeWhile_append_all _ _ hsp, List.countP_append]
  have h0 : (l.takeWhile isBlankTab).countP (fun c => c = '\n') = 0 := by
    rw [List.countP_eq_zero]
    intro a ha
    have hb := List.mem_takeWhile_imp ha
    simp only [decide_eq_true_eq]
    intro haeq
    subst haeq
    exact absurd hb (by decide)
  omega

theorem nlRunCount_collapse_le : ∀ (n : Nat) (l : List Char), l.length ≤ n →
    nlRunCount (collapseSpaces l) ≤ nlRunCount l := by
  intro n
  induction n with
  | zero =>
    intro l hl
    have : l = [] := List.eq_nil_of_length_eq_zero (by omega)
    subst this
    exact Nat.le.refl
  | succ m ih =>
    intro l hl
    cases l with
    | nil => exact Nat.le.refl
    | cons c cs =>
      simp only [List.length_cons] at hl
      rw [collapseSpaces_cons]
      by_cases hb : isBlankTab c = true
      · rw [if_pos hb]
        have hsp := blank_isSpace c hb
        have hne : c ≠ '\n' := by
          intro h
          subst h
          exact absurd hb (by decide)
        rw [nlRunCount_cons_space_ne ' '
            (collapseSpaces (cs.dropWhile isBlankTab)) (by decide) (by decide)]
        rw [nlRunCount_cons_space_ne c cs hsp hne]
        have hlen : (cs.dropWhile isBlankTab).length ≤ m := by
          have := (List.dropWhile_sublist (l := cs) (p := isBlankTab)).length_le
          omega
        calc nlRunCount (collapseSpaces (cs.dropWhile isBlankTab))
            ≤ nlRunCount (cs.dropWhile isBlankTab) := ih _ hlen
          _ = nlRunCount cs := nlRunCount_dropWhile_blank cs
      · rw [if_neg hb]
        by_cases hsp : isSpace c = true
        · by_cases hcn : c = '\n'
          · subst hcn
            rw [nlRunCount_cons_nl, nlRunCount_cons_nl]
            have := ih cs (by omega)
            omega
          · rw [nlRunCount_cons_space_ne c (collapseSpaces cs) hsp hcn,
              nlRunCount_cons_space_ne c cs hsp hcn]
            exact ih cs (by omega)
        · have hsf : isSpace c = false := by
            cases hE : isSpace c
            · rfl
            · exact absurd hE hsp
          rw [nlRunCount_cons_nonspace c (collapseSpaces cs) hsf,
            nlRunCount_cons_nonspace c cs hsf]

theorem goodRuns_collapse : ∀ (n : Nat) (l : List Char), l.length ≤ n →
    GoodRuns l → GoodRuns (collapseSpaces l) := by
  intro n
  induction n with
  | zero =>
    intro l hl _
    have : l = [] := List.eq_nil_of_length_eq_zero (by omega)
    subst this
    exact goodRuns_nil
  | succ m ih =>
    intro l hl hG
    cases l with
    | nil => exact goodRuns_nil
    | cons c cs =>
      simp only [List.length_cons] at hl
      rw [collapseSpaces_cons]
      by_cases hb : isBlankTab c = true
      · rw [if_pos hb]
        have hGd := goodRuns_dropWhile isBlankTab cs (goodRuns_tail c cs hG)
        have hlen : (cs.dropWhile isBlankTab).length ≤ m := by
          have := (List.dropWhile_sublist (l := cs) (p := isBlankTab)).length_le
          omega
        have hGc := ih _ hlen hGd
        intro i rest hi
        cases i with
        | zero =>
          rw [List.drop_zero] at hi
          obtain ⟨h1, -⟩ := List.cons.inj hi
          exact absurd h1 (by decide)
        | succ i =>
          rw [List.drop_succ_cons] at hi
          exact hGc i rest hi
      · rw [if_neg hb]
        have hGcs := ih cs (by omega) (goodRuns_tail c cs hG)
        intro i rest hi
        cases i with
        | zero =>
          rw [List.drop_zero] at hi
          obtain ⟨h1, h2⟩ := List.cons.inj hi
          subst h1
          have h1' : nlRunCount cs ≤ 1 := hG 0 cs (by rw [List.drop_zero])
          have hle := nlRunCount_collapse_le m cs (by omega)
          rw [← h2]
          omega
        | succ i =>
          rw [List.drop_succ_cons] at hi
          exact hGcs i rest hi

theorem subTriple_eq_self : ∀ (n : Nat) (l : List Char), l.length ≤ n →
    GoodRuns l → subTriple l = l := by
  intro n
  induction n with
  | zero =>
    intro l hl _
    have : l = [] := List.eq_nil_of_length_eq_zero (by omega)
    subst this
    rfl
  | succ m ih =>
    intro l hl hG
    cases l with
    | nil => rfl
    | cons c cs =>
      simp only [List.length_cons] at hl
      rw [subTriple_cons]
      cases htl : tripleLen (c :: cs) with
      | some k =>
        exfalso
        obtain ⟨hc, -, -⟩ := tripleLen_some_spec c cs k htl
        subst hc
        have h2 := tripleLen_some_count cs k htl
        have h1 := hG 0 cs (by rw [List.drop_zero])
        omega
      | none =>
        simp only []
        rw [ih cs (by omega) (goodRuns_tail c cs hG)]

theorem dropWhile_head_false (p : Char → Bool) :
    ∀ (l : List Char) (c : Char) (cs : List Char),
    l.dropWhile p = c :: cs → p c = false := by
  intro l
  induction l with
  | nil => intro c cs h; exact absurd h (by simp)
  | cons a l ih =>
    intro c cs h
    rw [List.dropWhile_cons] at h
    by_cases hp : p a = true
    · rw [if_pos hp] at h
      exact ih c cs h
    · rw [if_neg hp] at h
      obtain ⟨h1, -⟩ := List.cons.inj h
      subst h1
      cases hE : p a with
      | false => rfl
      | true => exact absurd hE hp

theorem collapse_dropWhile_fix (l : List Char) :
    (collapseSpaces (l.dropWhile isBlankTab)).dropWhile isBlankTab =
      collapseSpaces (l.dropWhile isBlankTab) := by
  cases hE : l.dropWhile isBlankTab with
  | nil => rfl
  | cons c cs =>
    have hc := dropWhile_head_false isBlankTab l c cs hE
    rw [collapseSpaces_cons, if_neg (by simp [hc])]
    rw [List.dropWhile_cons, if_neg (by simp [hc])]

theorem collapse_idem : ∀ (n : Nat) (l : List Char), l.length ≤ n →
    collapseSpaces (collapseSpaces l) = collapseSpaces l := by
  intro n
  induction n with
  | zero =>
    intro l hl
    have : l = [] := List.eq_nil_of_length_eq_zero (by omega)
    subst this
    rfl
  | succ m ih =>
    intro l hl
    cases l with
    | nil => rfl
    | cons c cs =>
      simp only [List.length_cons] at hl
      by_cases hb : isBlankTab c = true
      · rw [collapseSpaces_cons c cs, if_pos hb]
        rw [collapseSpaces_cons ' ' (collapseSpaces (cs.dropWhile isBlankTab)),
          if_pos (by decide)]
        rw [collapse_dropWhile_fix cs]
        have hlen : (cs.dropWhile isBlankTab).length ≤ m := by
          have := (List.dropWhile_sublist (l := cs) (p := isBlankTab)).length_le
          omega
        rw [ih _ hlen]
      · rw [collapseSpaces_cons c cs, if_neg hb]
        rw [collapseSpaces_cons c (collapseSpaces cs), if_neg hb]
        rw [ih cs (by omega)]

theorem clean_eq_of_no_cr (t : Txt) (h : '\r' ∉ t) :
    clean_response_text t =
      collapseSpaces (subTriple ((t.filter (fun c => !isZeroWidth c)).filter
        (fun c => c ≠ '\uFFFD'))) := by
  have hu : '\r' ∉ collapseSpaces (subTriple ((t.filter
      (fun c => !isZeroWidth c)).filter (fun c => c ≠ '\uFFFD'))) := by
    intro hmem
    rcases mem_collapseSpaces _ _ le_rfl '\r' hmem with h1 | h1
    · rcases mem_subTriple _ _ le_rfl '\r' h1 with h2 | h2
      · exact h (List.mem_of_mem_filter (List.mem_of_mem_filter h2))
      · exact absurd h2 (by decide)
    · exact absurd h1 (by decide)
  show replaceCr (replaceCrLf (collapseSpaces (subTriple ((t.filter
      (fun c => !isZeroWidth c)).filter (fun c => c ≠ '\uFFFD'))))) = _
  rw [replaceCrLf_of_no_cr _ _ le_rfl hu, replaceCr_of_no_cr _ hu]

theorem clean_fixed_of_props (u : Txt)
    (h1 : ∀ c ∈ u, (!isZeroWidth c) = true)
    (h2 : ∀ c ∈ u, decide (c ≠ '\uFFFD') = true)
    (h3 : '\r' ∉ u)
    (h4 : GoodRuns u)
    (h5 : collapseSpaces u = u) :
    clean_response_text u = u := by
  rw [clean_eq_of_no_cr u h3]
  rw [List.filter_eq_self.mpr h1, List.filter_eq_self.mpr h2]
  rw [subTriple_eq_self _ _ le_rfl h4, h5]

/-- C8 (amended): `_clean_response_text` is idempotent on every text that
contains no carriage return: cleaning an already-cleaned such text changes
nothing.  (On inputs with `'\r'` the claim fails, because the
carriage-return replacements run *after* the blank-line collapsing.) -/
theorem c8_clean_idempotent_no_cr (t : Txt) (h : '\r' ∉ t) :
    clean_response_text (clean_response_text t) = clean_response_text t := by
  rw [clean_eq_of_no_cr t h]
  apply clean_fixed_of_props
  · intro c hc
    rcases mem_collapseSpaces _ _ le_rfl c hc with h1 | h1
    · rcases mem_subTriple _ _ le_rfl c h1 with h2 | h2
      · have h3 := List.mem_of_mem_filter h2
        have h4 := List.of_mem_filter h3
        exact h4
      · subst h2; decide
    · subst h1; decide
  · intro c hc
    rcases mem_collapseSpaces _ _ le_rfl c hc with h1 | h1
    · rcases mem_subTriple _ _ le_rfl c h1 with h2 | h2
      · have h3 := List.of_mem_filter h2
        exact h3
      · subst h2; decide
    · subst h1; decide
  · intro hc
    rcases mem_collapseSpaces _ _ le_rfl '\r' hc with h1 | h1
    · rcases mem_subTriple _ _ le_rfl '\r' h1 with h2 | h2
      · exact h (List.mem_of_mem_filter (List.mem_of_mem_filter h2))
      · exact absurd h2 (by decide)
    · exact absurd h1 (by decide)
  · exact goodRuns_collapse _ _ le_rfl (goodRuns_subTriple _ _ le_rfl)
  · exact collapse_idem _ _ le_rfl

/-- C8 witness: a concrete carriage-return-free text (with a run of four
newlines and a run of blanks) on which the amended idempotence theorem is
instantiated. -/
theorem c8_clean_idempotent_no_cr_witness :
    ('\r' ∉ "Intro.\n\n\n\nMore   text.\t\tEnd.".toList) ∧
    clean_response_text (clean_response_text
        "Intro.\n\n\n\nMore   text.\t\tEnd.".toList) =
      clean_response_text "Intro.\n\n\n\nMore   text.\t\tEnd.".toList :=
  ⟨by decide, c8_clean_idempotent_no_cr _ (by decide)⟩

/-- C8 counterexample: on `"\r\r\r"` the cleaner is *not* idempotent.  The
first pass turns the three carriage returns into three newlines (the
`\r`-to-`\n` replacements run last, after the blank-line collapsing); the
second pass then collapses `"\n\n\n"` to `"\n\n"`. -/
theorem c8_counterexample :
    clean_response_text (clean_response_text ['\r', '\r', '\r']) ≠
      clean_response_text ['\r', '\r', '\r'] := by decide

theorem tonesMatch_encode : ∀ (styles : List (String × CreatorAnalysis)),
    tonesMatch styles (styles.map (fun ca => (ca.1, encodeAnalysis ca.2))) = true := by
  intro styles
  induction styles with
  | nil => rfl
  | cons ca rest ih =>
    have h1 : toneTriple (encodeAnalysis ca.2) =
        some (ca.2.enthusiasm, ca.2.technical_depth, ca.2.friendliness) := rfl
    simp only [List.map_cons, tonesMatch, Bool.and_eq_true, decide_eq_true_eq]
    exact ⟨⟨trivial, h1⟩, ih⟩

/-- C9: the creator-style profiles produced by `_analyze_creator_styles`
survive a save/load round trip of the training context: loading the
document written by `save_training_context` succeeds, yields the
`creator_styles` mapping, and that mapping holds the same creators in the
same order with exactly the original averaged tone-profile vectors. -/
theorem c9_training_roundtrip (ts : List ProcessedTranscript)
    (tc cfg : JsonVal) :
    ∃ kvs, load_training_context (save_training_context
        (analyze_creator_styles ts) tc cfg) = some (JsonVal.obj kvs) ∧
      tonesMatch (analyze_creator_styles ts) kvs = true := by
  refine ⟨(analyze_creator_styles ts).map
      (fun ca => (ca.1, encodeAnalysis ca.2)), ?_, tonesMatch_encode _⟩
  rfl

end CreatorsBuddy
